import Mathlib

set_option maxHeartbeats 1000000

/-
Verification development for the image-to-PDF converter component
(src/App.tsx).  The component state and every handler that mutates it are
embedded as pure Lean functions; browser object URLs are modelled as
natural-number handles allocated by a counter threaded through the state,
and every `URL.createObjectURL` / `URL.revokeObjectURL` call is recorded
in the `createdHandles` / `revokedHandles` ledgers so that resource
accounting can be stated and proved.
-/

namespace PdfConverter

/-- A `File` value as the component sees it: name, declared MIME type and
binary content (the content is abstract, a string token suffices). -/
structure RawFile where
  name : String
  type : String
  content : String
  deriving DecidableEq, Repr

/-- The `status` field of a `ManagedImage`: the string union
`'upscaling' | 'ready' | 'error'` of the source. -/
inductive Status where
  | upscaling
  | ready
  | error
  deriving DecidableEq, Repr

/-- One managed collection entry, mirroring the `ManagedImage` interface of
the source (`id`, `file`, `previewUrl`, `status`, `errorMessage`).  Preview
URLs are modelled as natural-number handles. -/
structure ManagedImage where
  id : String
  file : RawFile
  previewUrl : Nat
  status : Status
  errorMessage : Option String
  deriving DecidableEq, Repr

/-- The component state: the `managedImages`, `error`, `successMessage` and
`isGenerating` React state cells, plus the modelling machinery: the handle
allocator (`nextHandle`), the ledgers of every handle ever created and every
revoke call ever made, and `mountImages`, the collection value captured by
the unmount-cleanup closure at mount time (the effect has an empty
dependency array, so the closure sees the first-render value forever). -/
structure AppState where
  managedImages : List ManagedImage
  error : Option String
  successMessage : Option String
  isGenerating : Bool
  mountImages : List ManagedImage
  nextHandle : Nat
  createdHandles : List Nat
  revokedHandles : List Nat
  deriving DecidableEq, Repr

/-- `URL.createObjectURL`: allocates a fresh handle and records it. -/
def createObjectURL (s : AppState) : AppState × Nat :=
  ({ s with
      nextHandle := s.nextHandle + 1,
      createdHandles := s.createdHandles ++ [s.nextHandle] }, s.nextHandle)

/-- `URL.revokeObjectURL`: records the revoke call. -/
def revokeObjectURL (h : Nat) (s : AppState) : AppState :=
  { s with revokedHandles := s.revokedHandles ++ [h] }

/-- The handles that have been created and not (yet) revoked. -/
def liveHandles (s : AppState) : List Nat :=
  s.createdHandles.filter (fun x => x ∉ s.revokedHandles)

/-- The initial component state: empty collection, no messages, not
generating, and the unmount-cleanup closure snapshot taken at mount
(the initial, empty collection). -/
def initState : AppState :=
  { managedImages := []
    error := none
    successMessage := none
    isGenerating := false
    mountImages := []
    nextHandle := 0
    createdHandles := []
    revokedHandles := [] }

/-- The JS prefix test `t.startsWith(p)`, embedded over the character
sequence (so that it evaluates inside the kernel; JS `startsWith` is
exactly a prefix test on the code-unit sequence). -/
def strStartsWith (t p : String) : Bool :=
  p.toList.isPrefixOf t.toList

/-- The JS split `t.split(c)` for a one-character separator, over the
character sequence: the pieces between occurrences of `c`, in order,
empty pieces included. -/
def splitChars (c : Char) : List Char → List (List Char)
  | [] => [[]]
  | x :: xs =>
      if x = c then [] :: splitChars c xs
      else
        match splitChars c xs with
        | [] => [[x]]
        | h :: t => (x :: h) :: t

/-- Build the new `ManagedImage` entries for a batch of accepted files
paired with their `Math.random()` outcomes, threading handle creation
through the state: `id` is `` `${file.name}-${rnd}` ``, `previewUrl` a
fresh object URL, `status` the given initial status. -/
def mkEntries (st : Status) :
    List (RawFile × String) → AppState → AppState × List ManagedImage
  | [], s => (s, [])
  | (f, rnd) :: rest, s =>
      let p := createObjectURL s
      let entry : ManagedImage :=
        { id := f.name ++ "-" ++ rnd
          file := f
          previewUrl := p.2
          status := st
          errorMessage := none }
      let q := mkEntries st rest p.1
      (q.1, entry :: q.2)

/-- Pair each file of a batch with the `Math.random()` outcome drawn for
it; the outcomes are supplied by an oracle indexed by position. -/
def withRnds (rnds : Nat → String) (fs : List RawFile) :
    List (RawFile × String) :=
  fs.zip ((List.range fs.length).map rnds)

/-- The aggregated warning issued by `handleFileChange` when some selected
files are not images. -/
def fileChangeWarning : String :=
  "Some selected files were not valid images and have been ignored."

/-- `handleFileChange`: clears both banners, filters the selection to files
whose declared type starts with `image/`, sets the single aggregated
warning when something was dropped, admits every valid file as a `ready`
entry (fresh id, fresh preview handle) and sets the success banner when at
least one file was admitted. -/
def handleFileChange (files : List RawFile) (rnds : Nat → String)
    (s : AppState) : AppState :=
  let s1 := { s with error := none, successMessage := none }
  let validImages := files.filter (fun f => strStartsWith f.type "image/")
  let s2 :=
    if validImages.length ≠ files.length then
      { s1 with error := some fileChangeWarning }
    else s1
  let q := mkEntries Status.ready (withRnds rnds validImages) s2
  let s3 := { q.1 with managedImages := q.1.managedImages ++ q.2 }
  if validImages.length > 0 then
    { s3 with
        successMessage :=
          some (toString validImages.length ++ " image(s) selected.") }
  else s3

/-- `blob.type.split('/')[1] || 'png'`: the extension used for the
synthetic filename of a pasted image (the empty piece is falsy in the
source, hence the fallback also fires on it). -/
def extOf (t : String) : String :=
  let piece := (splitChars (Char.ofNat 47) t.toList).getD 1 []
  if piece = [] then "png" else String.mk piece

/-- One item of `event.clipboardData.items`: its declared `type` and the
result of `getAsFile()` (`none` models a null blob). -/
structure ClipboardItem where
  type : String
  blob : Option RawFile
  deriving DecidableEq, Repr

/-- The paste-collection loop of `handlePaste`: walks the indexed clipboard
items, keeps those whose type starts with `image/` and whose blob is
usable, and wraps each in a new file named
`` `pasted-image-${now}-${i}.${ext}` `` carrying the blob's type and
content.  Non-image items and null blobs are dropped silently. -/
def collectPasted (now : Nat) : List (Nat × ClipboardItem) → List RawFile
  | [] => []
  | (i, it) :: rest =>
      if strStartsWith it.type "image/" then
        match it.blob with
        | some b =>
            { name := "pasted-image-" ++ toString now ++ "-" ++ toString i
                ++ "." ++ extOf b.type
              type := b.type
              content := b.content } :: collectPasted now rest
        | none => collectPasted now rest
      else collectPasted now rest

/-- `handlePaste` (the admission part, up to and including the state
updates performed synchronously): when at least one image was collected,
sets the success banner, clears the error banner, and appends one
`upscaling` entry per pasted image (fresh id, fresh preview handle).
The per-entry `upscaleImage` continuations are modelled separately as
`onUpscaleSuccess` / `onUpscaleFailure`. -/
def handlePaste (now : Nat) (items : List ClipboardItem)
    (rnds : Nat → String) (s : AppState) : AppState :=
  let pastedImages := collectPasted now items.enum
  if pastedImages.length > 0 then
    let s1 :=
      { s with
          successMessage :=
            some (toString pastedImages.length
              ++ " image(s) pasted. Upscaling..."),
          error := none }
    let q := mkEntries Status.upscaling (withRnds rnds pastedImages) s1
    { q.1 with managedImages := q.1.managedImages ++ q.2 }
  else s

/-- The per-item failure text set by the upscale `catch` handler. -/
def upscalingFailedMessage : String := "Upscaling failed."

/-- The `.then` continuation of `upscaleImage` for the entry with id
`entryId`: creates a preview URL for the upscaled file first, then maps
over the collection revoking the old preview and swapping file, preview
and status (to `ready`) on the matching entry, and finally sets the
success banner.  When no entry matches, the freshly created URL is never
revoked by anyone. -/
def onUpscaleSuccess (entryId : String) (upscaledFile : RawFile)
    (s : AppState) : AppState :=
  let p := createObjectURL s
  let newPreviewUrl := p.2
  let s1 := p.1
  let olds :=
    (s1.managedImages.filter (fun img => img.id = entryId)).map
      (fun img => img.previewUrl)
  let s2 := { s1 with revokedHandles := s1.revokedHandles ++ olds }
  let s3 :=
    { s2 with
        managedImages := s2.managedImages.map (fun (img : ManagedImage) =>
          if img.id = entryId then
            { img with
                file := upscaledFile
                previewUrl := newPreviewUrl
                status := Status.ready }
          else img) }
  { s3 with successMessage := some "Image upscaling complete!" }

/-- The `.catch` continuation of `upscaleImage` for the entry with id
`entryId`: marks the matching entry `error` with the per-item message and
sets the aggregate error banner (unconditionally, even when no entry
matches). -/
def onUpscaleFailure (entryId : String) (s : AppState) : AppState :=
  let s1 :=
    { s with
        managedImages := s.managedImages.map (fun (img : ManagedImage) =>
          if img.id = entryId then
            { img with
                status := Status.error
                errorMessage := some upscalingFailedMessage }
          else img) }
  { s1 with error := some "Some images could not be upscaled." }

/-- `imagesToProcess` of `handleGeneratePdf`: the files of the `ready`
entries, in collection order. -/
def imagesToProcess (s : AppState) : List RawFile :=
  (s.managedImages.filter (fun img => img.status = Status.ready)).map
    (fun img => img.file)

/-- The guiding message of the empty-ready-set rejection. -/
def generateGuidance : String :=
  "Please add at least one ready image. If images are upscaling, please wait."

/-- `handleGeneratePdf`, up to the invocation of the assembly capability:
returns the updated state together with `some payload` when
`generatePdfFromImages` is invoked with `payload`, and `none` when the
call is rejected before invocation. -/
def handleGeneratePdf (s : AppState) : AppState × Option (List RawFile) :=
  let imgs := imagesToProcess s
  if imgs.length = 0 then
    ({ s with error := some generateGuidance }, none)
  else
    ({ s with
        isGenerating := true
        error := none
        successMessage := none }, some imgs)

/-- The enabled condition of the Generate PDF button: disabled while
generating or while any entry is still `upscaling`. -/
def generateButtonEnabled (s : AppState) : Bool :=
  !(s.isGenerating
    || s.managedImages.any (fun img => img.status = Status.upscaling))

/-- `handleClearImages`: revokes every entry's preview URL, empties the
collection and clears both banners. -/
def handleClearImages (s : AppState) : AppState :=
  let s1 :=
    { s with
        revokedHandles :=
          s.revokedHandles ++ s.managedImages.map (fun (img : ManagedImage) => img.previewUrl) }
  { s1 with managedImages := [], error := none, successMessage := none }

/-- `handleRemoveImage`: finds the first entry with the given id, revokes
its preview URL when found, and removes every entry with that id. -/
def handleRemoveImage (idToRemove : String) (s : AppState) : AppState :=
  match s.managedImages.find? (fun img => img.id = idToRemove) with
  | some imageToRemove =>
      { s with
          revokedHandles := s.revokedHandles ++ [imageToRemove.previewUrl]
          managedImages :=
            s.managedImages.filter (fun img => ¬(img.id = idToRemove)) }
  | none =>
      { s with
          managedImages :=
            s.managedImages.filter (fun img => ¬(img.id = idToRemove)) }

/-- View teardown: the unmount cleanup of the first effect.  Its closure
captured `managedImages` on the first render (empty dependency array), so
it revokes the preview URLs of the mount-time snapshot, not of the current
collection. -/
def teardown (s : AppState) : AppState :=
  { s with
      revokedHandles :=
        s.revokedHandles ++ s.mountImages.map (fun (img : ManagedImage) => img.previewUrl) }

/-! ### Characterization of `mkEntries` -/

theorem mkEntries_managedImages (st : Status) (ps : List (RawFile × String))
    (s : AppState) : (mkEntries st ps s).1.managedImages = s.managedImages := by
  induction ps generalizing s with
  | nil => rfl
  | cons p rest ih => simp [mkEntries, createObjectURL, ih]

theorem mkEntries_error (st : Status) (ps : List (RawFile × String))
    (s : AppState) : (mkEntries st ps s).1.error = s.error := by
  induction ps generalizing s with
  | nil => rfl
  | cons p rest ih => simp [mkEntries, createObjectURL, ih]

theorem mkEntries_successMessage (st : Status) (ps : List (RawFile × String))
    (s : AppState) :
    (mkEntries st ps s).1.successMessage = s.successMessage := by
  induction ps generalizing s with
  | nil => rfl
  | cons p rest ih => simp [mkEntries, createObjectURL, ih]

theorem mkEntries_isGenerating (st : Status) (ps : List (RawFile × String))
    (s : AppState) : (mkEntries st ps s).1.isGenerating = s.isGenerating := by
  induction ps generalizing s with
  | nil => rfl
  | cons p rest ih => simp [mkEntries, createObjectURL, ih]

theorem mkEntries_mountImages (st : Status) (ps : List (RawFile × String))
    (s : AppState) : (mkEntries st ps s).1.mountImages = s.mountImages := by
  induction ps generalizing s with
  | nil => rfl
  | cons p rest ih => simp [mkEntries, createObjectURL, ih]

theorem mkEntries_revokedHandles (st : Status) (ps : List (RawFile × String))
    (s : AppState) :
    (mkEntries st ps s).1.revokedHandles = s.revokedHandles := by
  induction ps generalizing s with
  | nil => rfl
  | cons p rest ih => simp [mkEntries, createObjectURL, ih]

theorem mkEntries_nextHandle (st : Status) (ps : List (RawFile × String))
    (s : AppState) :
    (mkEntries st ps s).1.nextHandle = s.nextHandle + ps.length := by
  induction ps generalizing s with
  | nil => simp [mkEntries]
  | cons p rest ih =>
      simp [mkEntries, createObjectURL, ih]
      omega

theorem mkEntries_length (st : Status) (ps : List (RawFile × String))
    (s : AppState) : (mkEntries st ps s).2.length = ps.length := by
  induction ps generalizing s with
  | nil => rfl
  | cons p rest ih => simp [mkEntries, createObjectURL, ih]

theorem mkEntries_map_previewUrl (st : Status) (ps : List (RawFile × String))
    (s : AppState) :
    (mkEntries st ps s).2.map (fun e => e.previewUrl) =
      List.range' s.nextHandle ps.length := by
  induction ps generalizing s with
  | nil => rfl
  | cons p rest ih => simp [mkEntries, createObjectURL, ih, List.range'_succ]

theorem mkEntries_createdHandles (st : Status) (ps : List (RawFile × String))
    (s : AppState) :
    (mkEntries st ps s).1.createdHandles =
      s.createdHandles ++ (mkEntries st ps s).2.map (fun e => e.previewUrl) := by
  induction ps generalizing s with
  | nil => simp [mkEntries]
  | cons p rest ih => simp [mkEntries, createObjectURL, ih]

theorem mkEntries_map_file (st : Status) (ps : List (RawFile × String))
    (s : AppState) :
    (mkEntries st ps s).2.map (fun e => e.file) = ps.map (fun p => p.1) := by
  induction ps generalizing s with
  | nil => rfl
  | cons p rest ih => simp [mkEntries, createObjectURL, ih]

theorem mkEntries_map_id (st : Status) (ps : List (RawFile × String))
    (s : AppState) :
    (mkEntries st ps s).2.map (fun e => e.id) =
      ps.map (fun p => p.1.name ++ "-" ++ p.2) := by
  induction ps generalizing s with
  | nil => rfl
  | cons p rest ih => simp [mkEntries, createObjectURL, ih]

theorem mkEntries_status (st : Status) (ps : List (RawFile × String))
    (s : AppState) :
    ∀ e ∈ (mkEntries st ps s).2, e.status = st := by
  induction ps generalizing s with
  | nil => intro e he; simp [mkEntries] at he
  | cons p rest ih =>
      intro e he
      simp only [mkEntries, List.mem_cons] at he
      rcases he with rfl | he
      · rfl
      · exact ih _ _ he

theorem mkEntries_errorMessage (st : Status) (ps : List (RawFile × String))
    (s : AppState) :
    ∀ e ∈ (mkEntries st ps s).2, e.errorMessage = none := by
  induction ps generalizing s with
  | nil => intro e he; simp [mkEntries] at he
  | cons p rest ih =>
      intro e he
      simp only [mkEntries, List.mem_cons] at he
      rcases he with rfl | he
      · rfl
      · exact ih _ _ he

theorem withRnds_map_fst (rnds : Nat → String) (fs : List RawFile) :
    (withRnds rnds fs).map (fun p => p.1) = fs := by
  unfold withRnds
  rw [List.map_fst_zip]
  simp

theorem withRnds_length (rnds : Nat → String) (fs : List RawFile) :
    (withRnds rnds fs).length = fs.length := by
  unfold withRnds
  rw [List.length_zip]
  simp

/-! ### Concrete fixtures -/

/-- A valid image file used as a concrete input. -/
def fA : RawFile := { name := "a.png", type := "image/png", content := "A" }

/-- A clipboard item carrying a usable image blob. -/
def clipGood : ClipboardItem :=
  { type := "image/png"
    blob := some { name := "clip", type := "image/png", content := "P" } }

/-- A clipboard item whose declared media kind is not an image. -/
def clipBad : ClipboardItem :=
  { type := "text/plain"
    blob := some { name := "t", type := "text/plain", content := "T" } }

/-- Paste one image (`clipGood`) into the empty initial state; the
resulting entry is `entry_p1` below. -/
def s_paste1 : AppState :=
  handlePaste 7 [clipGood] (fun _ => "0.3") initState

/-- The single entry admitted by `s_paste1`. -/
def entry_p1 : ManagedImage :=
  { id := "pasted-image-7-0.png-0.3"
    file := { name := "pasted-image-7-0.png", type := "image/png", content := "P" }
    previewUrl := 0
    status := Status.upscaling
    errorMessage := none }

/-- Mount, admit one valid image file, then tear the view down. -/
def s_c1 : AppState :=
  teardown (handleFileChange [fA] (fun _ => "0.1") initState)

/-- One ready file entry plus one pasted entry still upscaling. -/
def s_c2 : AppState :=
  handlePaste 7 [clipGood] (fun _ => "0.3")
    (handleFileChange [fA] (fun _ => "0.1") initState)

/-- Paste one image (its generated id is `pasted-image-7-0.png-0.3`),
remove it while still upscaling, then let the transform fail. -/
def s_c5 : AppState :=
  onUpscaleFailure "pasted-image-7-0.png-0.3"
    (handleRemoveImage "pasted-image-7-0.png-0.3" s_paste1)

/-- A paste batch holding one non-image item and one valid image item. -/
def s_c8 : AppState :=
  handlePaste 7 [clipBad, clipGood] (fun _ => "0.2") initState

/-- Two same-named files admitted while `Math.random()` returns the same
value for both draws. -/
def s_c9 : AppState :=
  handleFileChange [fA, fA] (fun _ => "0.5") initState

/-! ### C1 -/

/-- C1: the claim that every preview handle is reclaimed exactly once on
every exit path fails at view teardown.  After admitting one file and
tearing the view down, one handle was created, the teardown revoked
nothing (its closure captured the mount-time empty collection), and the
admitted item's handle is still live — contradicting the in-code comment
that this effect cleans up object URLs on unmount. -/
theorem c1_teardown_leaks_live_handle :
    s_c1.createdHandles.length = 1 ∧ s_c1.revokedHandles = [] ∧
      (liveHandles s_c1).length = 1 := by
  decide

/-! ### Counterexamples for corrected claims -/

/-- C2 counterexample: in a reachable state holding one `ready` entry and
one `upscaling` entry, `handleGeneratePdf` is not rejected — it invokes
the assembly capability with the ready file and sets no guiding message —
although an item has status `Upscaling`. -/
theorem c2_counterexample :
    s_c2.managedImages.any (fun img => img.status = Status.upscaling) = true ∧
      (handleGeneratePdf s_c2).2 = some [fA] ∧
      (handleGeneratePdf s_c2).1.error = none := by
  decide

/-- C5 counterexample: a stale failure completion (the pasted item was
removed while its transform was in flight) leaves the collection empty as
claimed, but an error does surface: the aggregate error banner is set by
the stale completion. -/
theorem c5_counterexample :
    s_c5.managedImages = [] ∧
      s_c5.error = some "Some images could not be upscaled." := by
  decide

/-- C8 counterexample: a clipboard batch with one non-image item and one
valid image item admits the valid item but surfaces no warning at all —
the paste path drops rejected items silently, so the claimed single
aggregated warning never appears. -/
theorem c8_counterexample :
    s_c8.managedImages.length = 1 ∧ s_c8.error = none := by
  decide

/-- C9 counterexample: with the filename and the `Math.random()` outcome
colliding across two admissions, two distinct items carry the same id, so
id uniqueness does not hold for every outcome of the id-generation
source. -/
theorem c9_counterexample :
    s_c9.managedImages.Nodup ∧
      s_c9.managedImages.map (fun img => img.id) =
        ["a.png-0.5", "a.png-0.5"] := by
  decide

/-! ### C3: the assembly payload -/

/-- The spec's description of the assembly input, stated from the spec's
words for comparison with the implementation: the `content` of every
`ManagedImage` currently in `Ready` state, in collection order; items in
`Upscaling` or `Error` contribute nothing. -/
def readyContentsSpec : List ManagedImage → List RawFile
  | [] => []
  | img :: rest =>
      match img.status with
      | Status.ready => img.file :: readyContentsSpec rest
      | _ => readyContentsSpec rest

theorem imagesToProcess_eq_readyContentsSpec (l : List ManagedImage) :
    (l.filter (fun img => img.status = Status.ready)).map
        (fun img => img.file) = readyContentsSpec l := by
  induction l with
  | nil => rfl
  | cons img rest ih =>
      cases h : img.status <;>
        simp [readyContentsSpec, List.filter_cons, h, ih]

/-- C3: whenever assembly is invoked, the payload handed to the assembly
capability is exactly the file of every `ready` item, in collection order;
`upscaling` and `error` items contribute nothing. -/
theorem c3_ready_sequence (s : AppState) (l : List RawFile)
    (h : (handleGeneratePdf s).2 = some l) :
    l = readyContentsSpec s.managedImages := by
  unfold handleGeneratePdf at h
  by_cases hc : (imagesToProcess s).length = 0
  · simp [hc] at h
  · simp [hc] at h
    rw [← h]
    unfold imagesToProcess
    exact imagesToProcess_eq_readyContentsSpec _

/-- Witness for C3 at a concrete invocation. -/
theorem c3_witness : [fA] = readyContentsSpec s_c2.managedImages :=
  c3_ready_sequence s_c2 [fA] (by decide)

/-! ### C7: the failure frame condition -/

/-- C7: an enhancement-transform failure sets the owning item's status to
`error` with the human-readable message, leaves that item's file and
preview handle unchanged, and leaves every other item entirely
unchanged (stated pointwise over positions in the collection). -/
theorem c7_failure_frame (s : AppState) (eid : String) (k : Nat)
    (a : ManagedImage) (ha : s.managedImages[k]? = some a) :
    (onUpscaleFailure eid s).managedImages.length =
        s.managedImages.length ∧
      ∃ b, (onUpscaleFailure eid s).managedImages[k]? = some b ∧
        b.file = a.file ∧ b.previewUrl = a.previewUrl ∧
        (a.id = eid → b.status = Status.error ∧
          b.errorMessage = some upscalingFailedMessage) ∧
        (a.id ≠ eid → b = a) := by
  have hmap : (onUpscaleFailure eid s).managedImages =
      s.managedImages.map (fun img =>
        if img.id = eid then
          { img with
              status := Status.error
              errorMessage := some upscalingFailedMessage }
        else img) := rfl
  constructor
  · rw [hmap, List.length_map]
  · by_cases hc : a.id = eid
    · refine ⟨{ a with
          status := Status.error
          errorMessage := some upscalingFailedMessage }, ?_, rfl, rfl,
          fun _ => ⟨rfl, rfl⟩, fun hne => absurd hc hne⟩
      rw [hmap, List.getElem?_map, ha]
      simp [hc]
    · refine ⟨a, ?_, rfl, rfl, fun heq => absurd heq hc, fun _ => rfl⟩
      rw [hmap, List.getElem?_map, ha]
      simp [hc]

/-- Witness for C7: the failure continuation applied to the single pasted
entry of `s_paste1`. -/
theorem c7_witness :
    (onUpscaleFailure "pasted-image-7-0.png-0.3" s_paste1).managedImages.length =
        s_paste1.managedImages.length ∧
      ∃ b, (onUpscaleFailure "pasted-image-7-0.png-0.3"
              s_paste1).managedImages[0]? = some b ∧
        b.file = entry_p1.file ∧ b.previewUrl = entry_p1.previewUrl ∧
        (entry_p1.id = "pasted-image-7-0.png-0.3" →
          b.status = Status.error ∧
            b.errorMessage = some upscalingFailedMessage) ∧
        (entry_p1.id ≠ "pasted-image-7-0.png-0.3" → b = entry_p1) :=
  c7_failure_frame s_paste1 "pasted-image-7-0.png-0.3" 0 entry_p1 (by decide)

/-! ### C10: removal of a missing id -/

theorem handleRemoveImage_missing (s : AppState) (i : String)
    (h : ∀ img ∈ s.managedImages, ¬(img.id = i)) :
    handleRemoveImage i s = s := by
  have hfind : s.managedImages.find? (fun img => img.id = i) = none := by
    rw [List.find?_eq_none]
    intro x hx
    simpa using h x hx
  have hfilter :
      s.managedImages.filter (fun img => ¬(img.id = i)) = s.managedImages := by
    rw [List.filter_eq_self]
    intro x hx
    simpa using h x hx
  unfold handleRemoveImage
  rw [hfind]
  simp only [hfilter]

/-- C10: calling `handleRemoveImage` with an id not present in the
collection is a no-op: the whole state is unchanged, so in particular the
collection is unchanged and no preview handle is revoked. -/
theorem c10_remove_missing_noop (s : AppState) (i : String)
    (h : ∀ img ∈ s.managedImages, img.id ≠ i) :
    handleRemoveImage i s = s :=
  handleRemoveImage_missing s i h

/-- Witness for C10 at a concrete state holding one pasted entry. -/
theorem c10_witness : handleRemoveImage "no-such-id" s_paste1 = s_paste1 :=
  c10_remove_missing_noop s_paste1 "no-such-id" (by decide)

/-! ### C2 (amended) -/

/-- C2, amended: when the ready subset is empty, `handleGeneratePdf`
rejects synchronously with the guiding message and does not invoke the
assembly capability; invocation while an item is `upscaling` is prevented
only by the disabled trigger (the button is disabled whenever any item is
`upscaling` or a generation is in flight), not by an in-function check. -/
theorem c2_amended_precondition (s : AppState) :
    ((imagesToProcess s).length = 0 →
      handleGeneratePdf s = ({ s with error := some generateGuidance }, none)) ∧
    (s.managedImages.any (fun img => img.status = Status.upscaling) = true →
      generateButtonEnabled s = false) := by
  constructor
  · intro h
    unfold handleGeneratePdf
    simp [h]
  · intro h
    unfold generateButtonEnabled
    simp [h]

/-- Witness for C2 (amended): the empty-ready rejection at the initial
state, and the disabled trigger at a state with an upscaling entry. -/
theorem c2_witness :
    handleGeneratePdf initState =
        ({ initState with error := some generateGuidance }, none) ∧
      generateButtonEnabled s_c2 = false :=
  ⟨(c2_amended_precondition initState).1 (by decide),
    (c2_amended_precondition s_c2).2 (by decide)⟩

/-! ### C5 (amended) -/

/-- C5, amended: a transform completion whose item id is no longer in the
collection leaves the collection value unchanged — the removed item is not
resurrected and no other item is modified — and the update path does not
fail; however, a stale failure completion still sets the aggregate error
banner (and a stale success completion still sets the success banner). -/
theorem c5_amended_stale_completion (s : AppState) (eid : String)
    (f : RawFile) (h : ∀ img ∈ s.managedImages, img.id ≠ eid) :
    (onUpscaleSuccess eid f s).managedImages = s.managedImages ∧
      (onUpscaleFailure eid s).managedImages = s.managedImages ∧
      (onUpscaleSuccess eid f s).error = s.error ∧
      (onUpscaleFailure eid s).error =
        some "Some images could not be upscaled." := by
  have key : ∀ (g : ManagedImage → ManagedImage),
      s.managedImages.map (fun img => if img.id = eid then g img else img) =
        s.managedImages := by
    intro g
    calc s.managedImages.map (fun img => if img.id = eid then g img else img)
        = s.managedImages.map id :=
          List.map_congr_left (fun a ha => by rw [if_neg (h a ha)]; rfl)
      _ = s.managedImages := List.map_id _
  refine ⟨?_, ?_, rfl, rfl⟩
  · show s.managedImages.map _ = s.managedImages
    exact key _
  · show s.managedImages.map _ = s.managedImages
    exact key _

/-- Witness for C5 (amended): the stale completions after removing the
only pasted entry. -/
theorem c5_witness :
    (onUpscaleSuccess "pasted-image-7-0.png-0.3" fA
          (handleRemoveImage "pasted-image-7-0.png-0.3"
            s_paste1)).managedImages =
        (handleRemoveImage "pasted-image-7-0.png-0.3"
            s_paste1).managedImages ∧
      (onUpscaleFailure "pasted-image-7-0.png-0.3"
          (handleRemoveImage "pasted-image-7-0.png-0.3"
            s_paste1)).managedImages =
        (handleRemoveImage "pasted-image-7-0.png-0.3"
            s_paste1).managedImages ∧
      (onUpscaleSuccess "pasted-image-7-0.png-0.3" fA
          (handleRemoveImage "pasted-image-7-0.png-0.3" s_paste1)).error =
        (handleRemoveImage "pasted-image-7-0.png-0.3" s_paste1).error ∧
      (onUpscaleFailure "pasted-image-7-0.png-0.3"
          (handleRemoveImage "pasted-image-7-0.png-0.3" s_paste1)).error =
        some "Some images could not be upscaled." :=
  c5_amended_stale_completion
    (handleRemoveImage "pasted-image-7-0.png-0.3" s_paste1)
    "pasted-image-7-0.png-0.3" fA (by decide)

/-! ### C8 (amended) -/

/-- C8, amended: in a file-selection batch, non-image files are rejected
with exactly one aggregated warning for the batch and every valid file is
still admitted, in order; in a clipboard-paste batch, non-image items are
dropped silently — no warning of any kind surfaces — while the valid items
of the batch are still admitted, in order. -/
theorem c8_amended_ingest (files : List RawFile) (rnds : Nat → String)
    (now : Nat) (items : List ClipboardItem) (rnds2 : Nat → String)
    (s t : AppState) :
    ((handleFileChange files rnds s).error =
        if (files.filter (fun f => strStartsWith f.type "image/")).length ≠
            files.length
        then some fileChangeWarning else none) ∧
      ((handleFileChange files rnds s).managedImages.map
          (fun img => img.file) =
        s.managedImages.map (fun img => img.file) ++
          files.filter (fun f => strStartsWith f.type "image/")) ∧
      ((handlePaste now items rnds2 t).error =
        if 0 < (collectPasted now items.enum).length then none
        else t.error) ∧
      ((handlePaste now items rnds2 t).managedImages.map
          (fun img => img.file) =
        t.managedImages.map (fun img => img.file) ++
          collectPasted now items.enum) := by
  refine ⟨?_, ?_, ?_, ?_⟩
  · by_cases hlen :
        (files.filter (fun f => strStartsWith f.type "image/")).length ≠
          files.length <;>
      by_cases hpos :
        (files.filter (fun f => strStartsWith f.type "image/")).length > 0 <;>
      simp [handleFileChange, hlen, hpos, mkEntries_error]
  · by_cases hlen :
        (files.filter (fun f => strStartsWith f.type "image/")).length ≠
          files.length <;>
      by_cases hpos :
        (files.filter (fun f => strStartsWith f.type "image/")).length > 0 <;>
      simp [handleFileChange, hlen, hpos, mkEntries_managedImages,
        mkEntries_map_file, withRnds_map_fst]
  · by_cases hpos : 0 < (collectPasted now items.enum).length <;>
      simp [handlePaste, hpos, mkEntries_error]
  · by_cases hpos : 0 < (collectPasted now items.enum).length
    · simp [handlePaste, hpos, mkEntries_managedImages, mkEntries_map_file,
        withRnds_map_fst]
    · have h0 : collectPasted now items.enum = [] :=
        List.length_eq_zero.mp (by omega)
      simp [handlePaste, hpos, h0]

/-! ### C6: the ledger invariant over admit/remove/clear sequences -/

/-- The collection operations of the claim: admission through either
adapter, per-item removal, and clear-all. -/
inductive CollectionOp where
  | admitFiles (files : List RawFile) (rnds : Nat → String)
  | admitPaste (now : Nat) (items : List ClipboardItem) (rnds : Nat → String)
  | removeImage (i : String)
  | clearImages

/-- Apply one collection operation. -/
def applyCollectionOp : CollectionOp → AppState → AppState
  | .admitFiles files rnds, s => handleFileChange files rnds s
  | .admitPaste now items rnds, s => handlePaste now items rnds s
  | .removeImage i, s => handleRemoveImage i s
  | .clearImages, s => handleClearImages s

/-- Run a sequence of collection operations from a state. -/
def runOps (ops : List CollectionOp) (s : AppState) : AppState :=
  ops.foldl (fun s o => applyCollectionOp o s) s

/-- The ids an operation generates at admission time (file name plus the
`Math.random()` outcome drawn for that position). -/
def opAdmitIds : CollectionOp → List String
  | .admitFiles files rnds =>
      (withRnds rnds (files.filter (fun f => strStartsWith f.type "image/"))).map
        (fun p => p.1.name ++ "-" ++ p.2)
  | .admitPaste now items rnds =>
      (withRnds rnds (collectPasted now items.enum)).map
        (fun p => p.1.name ++ "-" ++ p.2)
  | _ => []

/-- All ids generated across a sequence of operations, in order. -/
def opsAdmitIds (ops : List CollectionOp) : List String :=
  (ops.map opAdmitIds).join

/-- The resource-ledger invariant: item ids are pairwise distinct, created
handles are pairwise distinct, the live handles are exactly the preview
handles of the current collection in order, every created handle is below
the allocator, every revoke targeted a created handle, and no handle was
ever revoked twice. -/
structure LedgerInv (s : AppState) : Prop where
  idsNodup : (s.managedImages.map (fun img => img.id)).Nodup
  createdNodup : s.createdHandles.Nodup
  liveEq : liveHandles s = s.managedImages.map (fun img => img.previewUrl)
  createdLt : ∀ x ∈ s.createdHandles, x < s.nextHandle
  revokedSub : ∀ x ∈ s.revokedHandles, x ∈ s.createdHandles
  revokedNodup : s.revokedHandles.Nodup

theorem LedgerInv_congr (s s' : AppState)
    (h1 : s'.managedImages = s.managedImages)
    (h2 : s'.nextHandle = s.nextHandle)
    (h3 : s'.createdHandles = s.createdHandles)
    (h4 : s'.revokedHandles = s.revokedHandles)
    (hs : LedgerInv s) : LedgerInv s' := by
  have hlive : liveHandles s' = liveHandles s := by
    unfold liveHandles
    rw [h3, h4]
  exact ⟨h1 ▸ hs.idsNodup, h3 ▸ hs.createdNodup,
    by rw [hlive, h1, hs.liveEq],
    by rw [h3, h2]; exact hs.createdLt,
    by rw [h4, h3]; exact hs.revokedSub,
    h4 ▸ hs.revokedNodup⟩

theorem ledger_init : LedgerInv initState := by
  constructor <;> simp [initState, liveHandles]

/-- The entries `mkEntries` produces, as a function of the batch and the
allocator position only. -/
def entriesFor (st : Status) : List (RawFile × String) → Nat → List ManagedImage
  | [], _ => []
  | (f, rnd) :: rest, n =>
      { id := f.name ++ "-" ++ rnd
        file := f
        previewUrl := n
        status := st
        errorMessage := none } :: entriesFor st rest (n + 1)

theorem mkEntries_snd_eq (st : Status) (ps : List (RawFile × String))
    (s : AppState) : (mkEntries st ps s).2 = entriesFor st ps s.nextHandle := by
  induction ps generalizing s with
  | nil => rfl
  | cons p rest ih => simp [mkEntries, createObjectURL, entriesFor, ih]

theorem entriesFor_map_previewUrl (st : Status) (ps : List (RawFile × String))
    (n : Nat) :
    (entriesFor st ps n).map (fun e => e.previewUrl) =
      List.range' n ps.length := by
  induction ps generalizing n with
  | nil => rfl
  | cons p rest ih => simp [entriesFor, ih, List.range'_succ]

theorem entriesFor_map_id (st : Status) (ps : List (RawFile × String))
    (n : Nat) :
    (entriesFor st ps n).map (fun e => e.id) =
      ps.map (fun p => p.1.name ++ "-" ++ p.2) := by
  induction ps generalizing n with
  | nil => rfl
  | cons p rest ih => simp [entriesFor, ih]

/-- The fields of `handleFileChange` that the ledger invariant reads,
expressed over the base state. -/
theorem handleFileChange_ledger_fields (files : List RawFile)
    (rnds : Nat → String) (s : AppState) :
    (handleFileChange files rnds s).managedImages =
        s.managedImages ++
          entriesFor Status.ready
            (withRnds rnds (files.filter (fun f => strStartsWith f.type "image/")))
            s.nextHandle ∧
      (handleFileChange files rnds s).createdHandles =
        s.createdHandles ++
          (entriesFor Status.ready
            (withRnds rnds (files.filter (fun f => strStartsWith f.type "image/")))
            s.nextHandle).map (fun e => e.previewUrl) ∧
      (handleFileChange files rnds s).revokedHandles = s.revokedHandles ∧
      (handleFileChange files rnds s).nextHandle =
        s.nextHandle +
          (withRnds rnds (files.filter (fun f => strStartsWith f.type "image/"))).length := by
  by_cases hlen :
      (files.filter (fun f => strStartsWith f.type "image/")).length ≠
        files.length <;>
    by_cases hpos :
      (files.filter (fun f => strStartsWith f.type "image/")).length > 0 <;>
    refine ⟨?_, ?_, ?_, ?_⟩ <;>
    simp [handleFileChange, hlen, hpos, mkEntries_managedImages,
      mkEntries_createdHandles, mkEntries_revokedHandles, mkEntries_nextHandle,
      mkEntries_snd_eq, withRnds_length]

/-- The fields of `handlePaste` that the ledger invariant reads, expressed
over the base state (in the empty-batch case all appended lists are empty,
so the equations hold unconditionally). -/
theorem handlePaste_ledger_fields (now : Nat) (items : List ClipboardItem)
    (rnds : Nat → String) (t : AppState) :
    (handlePaste now items rnds t).managedImages =
        t.managedImages ++
          entriesFor Status.upscaling
            (withRnds rnds (collectPasted now items.enum)) t.nextHandle ∧
      (handlePaste now items rnds t).createdHandles =
        t.createdHandles ++
          (entriesFor Status.upscaling
            (withRnds rnds (collectPasted now items.enum))
            t.nextHandle).map (fun e => e.previewUrl) ∧
      (handlePaste now items rnds t).revokedHandles = t.revokedHandles ∧
      (handlePaste now items rnds t).nextHandle =
        t.nextHandle + (withRnds rnds (collectPasted now items.enum)).length := by
  by_cases hpos : 0 < (collectPasted now items.enum).length
  · refine ⟨?_, ?_, ?_, ?_⟩ <;>
      simp [handlePaste, hpos, mkEntries_managedImages, mkEntries_createdHandles,
        mkEntries_revokedHandles, mkEntries_nextHandle, mkEntries_snd_eq,
        withRnds_length]
  · have h0 : collectPasted now items.enum = [] :=
      List.length_eq_zero.mp (by omega)
    refine ⟨?_, ?_, ?_, ?_⟩ <;>
      simp [handlePaste, hpos, h0, withRnds, entriesFor]

/-- Admitting a batch of fresh entries preserves the ledger invariant,
provided the generated ids avoid the ids already in the collection and are
pairwise distinct. -/
theorem ledger_admission (s r : AppState) (st : Status)
    (ps : List (RawFile × String))
    (hmi : r.managedImages = s.managedImages ++ entriesFor st ps s.nextHandle)
    (hcr : r.createdHandles =
      s.createdHandles ++
        (entriesFor st ps s.nextHandle).map (fun e => e.previewUrl))
    (hrv : r.revokedHandles = s.revokedHandles)
    (hnx : r.nextHandle = s.nextHandle + ps.length)
    (hs : LedgerInv s)
    (hids : (s.managedImages.map (fun img => img.id) ++
      ps.map (fun p => p.1.name ++ "-" ++ p.2)).Nodup) :
    LedgerInv r := by
  have hrange : (entriesFor st ps s.nextHandle).map (fun e => e.previewUrl) =
      List.range' s.nextHandle ps.length := entriesFor_map_previewUrl st ps _
  have hfresh : ∀ x ∈ (entriesFor st ps s.nextHandle).map
      (fun e => e.previewUrl), s.nextHandle ≤ x ∧ x < s.nextHandle + ps.length := by
    intro x hx
    rw [hrange] at hx
    exact List.mem_range'_1.mp hx
  have hnotrev : ∀ x ∈ (entriesFor st ps s.nextHandle).map
      (fun e => e.previewUrl), x ∉ s.revokedHandles := by
    intro x hx hmem
    have h1 := (hfresh x hx).1
    have h2 := hs.createdLt x (hs.revokedSub x hmem)
    omega
  have hnotcr : ∀ x ∈ (entriesFor st ps s.nextHandle).map
      (fun e => e.previewUrl), x ∉ s.createdHandles := by
    intro x hx hmem
    have h1 := (hfresh x hx).1
    have h2 := hs.createdLt x hmem
    omega
  constructor
  · rw [hmi, List.map_append, entriesFor_map_id]
    exact hids
  · rw [hcr, List.nodup_append]
    refine ⟨hs.createdNodup, ?_, ?_⟩
    · rw [hrange]
      exact List.nodup_range' _ _
    · intro x hx hx'
      exact hnotcr x hx' hx
  · unfold liveHandles
    rw [hcr, hrv, hmi, List.filter_append, List.map_append]
    congr 1
    · exact hs.liveEq
    · exact List.filter_eq_self.mpr (fun x hx => by
        simpa using hnotrev x hx)
  · intro x hx
    rw [hcr] at hx
    rw [hnx]
    rcases List.mem_append.mp hx with h | h
    · have := hs.createdLt x h
      omega
    · exact (hfresh x h).2
  · intro x hx
    rw [hrv] at hx
    rw [hcr]
    exact List.mem_append_left _ (hs.revokedSub x hx)
  · rw [hrv]
    exact hs.revokedNodup

theorem ledger_fileChange (files : List RawFile) (rnds : Nat → String)
    (s : AppState) (hs : LedgerInv s)
    (hids : (s.managedImages.map (fun img => img.id) ++
      opAdmitIds (.admitFiles files rnds)).Nodup) :
    LedgerInv (handleFileChange files rnds s) := by
  obtain ⟨h1, h2, h3, h4⟩ := handleFileChange_ledger_fields files rnds s
  exact ledger_admission s _ Status.ready _ h1 h2 h3
    (by rw [h4, withRnds_length]) hs (by simpa [opAdmitIds] using hids)

theorem ledger_paste (now : Nat) (items : List ClipboardItem)
    (rnds : Nat → String) (t : AppState) (hs : LedgerInv t)
    (hids : (t.managedImages.map (fun img => img.id) ++
      opAdmitIds (.admitPaste now items rnds)).Nodup) :
    LedgerInv (handlePaste now items rnds t) := by
  obtain ⟨h1, h2, h3, h4⟩ := handlePaste_ledger_fields now items rnds t
  exact ledger_admission t _ Status.upscaling _ h1 h2 h3
    (by rw [h4, withRnds_length]) hs (by simpa [opAdmitIds] using hids)

/-- Removing the (unique) entry with a given id drops exactly its preview
handle from the live handles, position for position. -/
theorem filter_previewUrl_of_remove (l : List ManagedImage) (a : ManagedImage)
    (ha : a ∈ l)
    (hid : (l.map (fun img => img.id)).Nodup)
    (hpv : (l.map (fun img => img.previewUrl)).Nodup) :
    (l.map (fun img => img.previewUrl)).filter
        (fun x => ¬(x = a.previewUrl)) =
      (l.filter (fun img => ¬(img.id = a.id))).map
        (fun img => img.previewUrl) := by
  induction l with
  | nil => exact absurd ha (List.not_mem_nil a)
  | cons x rest ih =>
      simp only [decide_not] at ih
      rw [List.map_cons, List.nodup_cons] at hid hpv
      obtain ⟨hid1, hid2⟩ := hid
      obtain ⟨hpv1, hpv2⟩ := hpv
      rcases List.mem_cons.mp ha with rfl | hmem
      · have l1 : (rest.map (fun img => img.previewUrl)).filter
            (fun y => !decide (y = a.previewUrl)) =
              rest.map (fun img => img.previewUrl) :=
          List.filter_eq_self.mpr (fun y hy => by
            simp only [Bool.not_eq_true', decide_eq_false_iff_not]
            intro he
            exact hpv1 (he ▸ hy))
        have l2 : rest.filter (fun img => !decide (img.id = a.id)) = rest :=
          List.filter_eq_self.mpr (fun y hy => by
            simp only [Bool.not_eq_true', decide_eq_false_iff_not]
            intro he
            exact hid1 (he ▸ List.mem_map_of_mem _ hy))
        simp [List.filter_cons, l1, l2]
      · have hxpv : ¬(x.previewUrl = a.previewUrl) := fun he =>
          hpv1 (by rw [he]; exact List.mem_map_of_mem _ hmem)
        have hxid : ¬(x.id = a.id) := fun he =>
          hid1 (by rw [he]; exact List.mem_map_of_mem _ hmem)
        simp [List.filter_cons, hxpv, hxid, ih hmem hid2 hpv2]

theorem ledger_remove (i : String) (s : AppState) (hs : LedgerInv s) :
    LedgerInv (handleRemoveImage i s) := by
  cases hfind : s.managedImages.find? (fun img => img.id = i) with
  | none =>
      have hnone : ∀ img ∈ s.managedImages, ¬(img.id = i) := by
        intro img hm
        have := List.find?_eq_none.mp hfind img hm
        simpa using this
      rw [handleRemoveImage_missing s i hnone]
      exact hs
  | some a =>
      have hamem : a ∈ s.managedImages := List.mem_of_find?_eq_some hfind
      have haid : a.id = i := by
        have := List.find?_some hfind
        simpa using this
      have hr : handleRemoveImage i s =
          { s with
              revokedHandles := s.revokedHandles ++ [a.previewUrl]
              managedImages :=
                s.managedImages.filter (fun img => ¬(img.id = i)) } := by
        unfold handleRemoveImage
        rw [hfind]
      have hpvnodup : (s.managedImages.map
          (fun img => img.previewUrl)).Nodup := by
        rw [← hs.liveEq]
        exact (List.filter_sublist _).nodup hs.createdNodup
      have hapv_live : a.previewUrl ∈ liveHandles s := by
        rw [hs.liveEq]
        exact List.mem_map_of_mem _ hamem
      have hapv_cr : a.previewUrl ∈ s.createdHandles :=
        (List.filter_sublist _).mem hapv_live
      have hapv_notrev : a.previewUrl ∉ s.revokedHandles := by
        have := List.of_mem_filter hapv_live
        simpa using this
      rw [hr]
      constructor
      · exact ((List.filter_sublist _).map _).nodup hs.idsNodup
      · exact hs.createdNodup
      · show s.createdHandles.filter _ = _
        have hfl : (s.createdHandles.filter
            (fun x => x ∉ s.revokedHandles ++ [a.previewUrl])) =
              (s.createdHandles.filter
                (fun x => x ∉ s.revokedHandles)).filter
                (fun x => ¬(x = a.previewUrl)) := by
          rw [List.filter_filter]
          apply List.filter_congr
          intro x hx
          by_cases hx1 : x = a.previewUrl <;>
            by_cases hx2 : x ∈ s.revokedHandles <;>
            simp [hx1, hx2]
        calc s.createdHandles.filter
              (fun x => x ∉ s.revokedHandles ++ [a.previewUrl])
            = (s.createdHandles.filter
                (fun x => x ∉ s.revokedHandles)).filter
                (fun x => ¬(x = a.previewUrl)) := hfl
          _ = (s.managedImages.map (fun img => img.previewUrl)).filter
                (fun x => ¬(x = a.previewUrl)) := by
                rw [← hs.liveEq]; rfl
          _ = (s.managedImages.filter (fun img => ¬(img.id = a.id))).map
                (fun img => img.previewUrl) :=
              filter_previewUrl_of_remove _ a hamem hs.idsNodup hpvnodup
          _ = (s.managedImages.filter (fun img => ¬(img.id = i))).map
                (fun img => img.previewUrl) := by rw [haid]
      · exact hs.createdLt
      · intro x hx
        rcases List.mem_append.mp hx with h | h
        · exact hs.revokedSub x h
        · rw [List.mem_singleton.mp h]
          exact hapv_cr
      · rw [List.nodup_append]
        refine ⟨hs.revokedNodup, List.nodup_singleton _, ?_⟩
        intro x hx hx'
        rw [List.mem_singleton.mp hx'] at hx
        exact hapv_notrev hx

theorem ledger_clear (s : AppState) (hs : LedgerInv s) :
    LedgerInv (handleClearImages s) := by
  have hlive_sub : ∀ x ∈ s.managedImages.map (fun img => img.previewUrl),
      x ∈ s.createdHandles ∧ x ∉ s.revokedHandles := by
    intro x hx
    rw [← hs.liveEq] at hx
    refine ⟨(List.filter_sublist _).mem hx, ?_⟩
    have := List.of_mem_filter hx
    simpa using this
  have hr : handleClearImages s =
      { s with
          revokedHandles :=
            s.revokedHandles ++
              s.managedImages.map (fun img => img.previewUrl)
          managedImages := []
          error := none
          successMessage := none } := rfl
  rw [hr]
  constructor
  · simp
  · exact hs.createdNodup
  · show s.createdHandles.filter _ = ([] : List ManagedImage).map _
    rw [List.map_nil]
    apply List.filter_eq_nil.mpr
    intro x hx
    simp only [decide_eq_true_eq, not_not, List.mem_append]
    by_cases hrev : x ∈ s.revokedHandles
    · left; exact hrev
    · right
      have hxl : x ∈ liveHandles s := by
        unfold liveHandles
        apply List.mem_filter.mpr
        exact ⟨hx, by simpa using hrev⟩
      rw [hs.liveEq] at hxl
      exact hxl
  · exact hs.createdLt
  · intro x hx
    rcases List.mem_append.mp hx with h | h
    · exact hs.revokedSub x h
    · exact (hlive_sub x h).1
  · rw [List.nodup_append]
    refine ⟨hs.revokedNodup, ?_, ?_⟩
    · rw [← hs.liveEq]
      exact (List.filter_sublist _).nodup hs.createdNodup
    · intro x hx hx'
      exact (hlive_sub x hx').2 hx

theorem handleFileChange_map_id (files : List RawFile) (rnds : Nat → String)
    (s : AppState) :
    (handleFileChange files rnds s).managedImages.map (fun img => img.id) =
      s.managedImages.map (fun img => img.id) ++
        opAdmitIds (CollectionOp.admitFiles files rnds) := by
  obtain ⟨h1, _, _, _⟩ := handleFileChange_ledger_fields files rnds s
  rw [h1, List.map_append, entriesFor_map_id]
  rfl

theorem handlePaste_map_id (now : Nat) (items : List ClipboardItem)
    (rnds : Nat → String) (t : AppState) :
    (handlePaste now items rnds t).managedImages.map (fun img => img.id) =
      t.managedImages.map (fun img => img.id) ++
        opAdmitIds (CollectionOp.admitPaste now items rnds) := by
  obtain ⟨h1, _, _, _⟩ := handlePaste_ledger_fields now items rnds t
  rw [h1, List.map_append, entriesFor_map_id]
  rfl

theorem handleRemoveImage_managedImages (i : String) (s : AppState) :
    (handleRemoveImage i s).managedImages =
      s.managedImages.filter (fun img => ¬(img.id = i)) := by
  unfold handleRemoveImage
  cases s.managedImages.find? (fun img => img.id = i) <;> rfl

theorem runOps_cons (o : CollectionOp) (ops : List CollectionOp)
    (s : AppState) :
    runOps (o :: ops) s = runOps ops (applyCollectionOp o s) := rfl

theorem opsAdmitIds_cons (o : CollectionOp) (ops : List CollectionOp) :
    opsAdmitIds (o :: ops) = opAdmitIds o ++ opsAdmitIds ops := by
  simp [opsAdmitIds]

theorem ledger_runOps (ops : List CollectionOp) (s : AppState)
    (hs : LedgerInv s)
    (hids : (s.managedImages.map (fun img => img.id) ++
      opsAdmitIds ops).Nodup) :
    LedgerInv (runOps ops s) := by
  induction ops generalizing s with
  | nil => simpa [runOps] using hs
  | cons o rest ih =>
      rw [runOps_cons]
      rw [opsAdmitIds_cons, ← List.append_assoc] at hids
      cases o with
      | admitFiles files rnds =>
          apply ih
          · exact ledger_fileChange files rnds s hs
              ((List.sublist_append_left _ _).nodup hids)
          · show ((handleFileChange files rnds s).managedImages.map
                (fun img => img.id) ++ opsAdmitIds rest).Nodup
            rw [handleFileChange_map_id]
            exact hids
      | admitPaste now items rnds =>
          apply ih
          · exact ledger_paste now items rnds s hs
              ((List.sublist_append_left _ _).nodup hids)
          · show ((handlePaste now items rnds s).managedImages.map
                (fun img => img.id) ++ opsAdmitIds rest).Nodup
            rw [handlePaste_map_id]
            exact hids
      | removeImage i =>
          apply ih
          · exact ledger_remove i s hs
          · show ((handleRemoveImage i s).managedImages.map
                (fun img => img.id) ++ opsAdmitIds rest).Nodup
            have hids' : (s.managedImages.map (fun img => img.id) ++
                opsAdmitIds rest).Nodup := by
              simpa [opAdmitIds] using hids
            have hx : List.Sublist
                ((handleRemoveImage i s).managedImages.map
                  (fun img => img.id))
                (s.managedImages.map (fun img => img.id)) := by
              rw [handleRemoveImage_managedImages]
              exact (List.filter_sublist _).map _
            exact (hx.append (List.Sublist.refl _)).nodup hids'
      | clearImages =>
          apply ih
          · exact ledger_clear s hs
          · show ((handleClearImages s).managedImages.map
                (fun img => img.id) ++ opsAdmitIds rest).Nodup
            have hids' : (s.managedImages.map (fun img => img.id) ++
                opsAdmitIds rest).Nodup := by
              simpa [opAdmitIds] using hids
            simpa using (List.sublist_append_right _ _).nodup hids'

/-- C6: for every sequence of admit (file selection or clipboard paste),
remove, and clear operations — with the admission-generated ids pairwise
distinct, as the spec's admission contract stipulates — the number of
live (created and not yet revoked) preview handles equals the number of
items currently in the collection, and no handle is ever revoked twice
(no leak, no double reclaim). -/
theorem c6_ledger_invariant (ops : List CollectionOp)
    (hids : (opsAdmitIds ops).Nodup) :
    (liveHandles (runOps ops initState)).length =
        (runOps ops initState).managedImages.length ∧
      (runOps ops initState).revokedHandles.Nodup := by
  have h := ledger_runOps ops initState ledger_init
    (by simpa [initState] using hids)
  exact ⟨by rw [h.liveEq, List.length_map], h.revokedNodup⟩

/-- A concrete operation sequence exercising every operation kind. -/
def opsW : List CollectionOp :=
  [CollectionOp.admitFiles [fA] (fun _ => "0.1"),
   CollectionOp.admitPaste 7 [clipGood] (fun _ => "0.3"),
   CollectionOp.removeImage "a.png-0.1",
   CollectionOp.clearImages]

/-- Witness for C6 at the concrete sequence `opsW`. -/
theorem c6_witness :
    (liveHandles (runOps opsW initState)).length =
        (runOps opsW initState).managedImages.length ∧
      (runOps opsW initState).revokedHandles.Nodup :=
  c6_ledger_invariant opsW (by decide)

/-! ### C4 and C9: the per-item status machine over full traces -/

/-- One event of a full execution trace: a user-driven collection
operation, or the settlement of one pasted entry's `upscaleImage` promise
(`settleSuccess` runs the `.then` continuation, `settleFailure` the
`.catch` continuation). -/
inductive TraceOp where
  | op (o : CollectionOp)
  | settleSuccess (i : String) (f : RawFile)
  | settleFailure (i : String)

/-- Apply one trace event. -/
def applyTraceOp : TraceOp → AppState → AppState
  | .op o, s => applyCollectionOp o s
  | .settleSuccess i f, s => onUpscaleSuccess i f s
  | .settleFailure i, s => onUpscaleFailure i s

/-- Run a trace from a state. -/
def runTrace (tr : List TraceOp) (s : AppState) : AppState :=
  tr.foldl (fun s t => applyTraceOp t s) s

/-- The ids a collection operation admits through the file adapter. -/
def opFileIds : CollectionOp → List String
  | .admitFiles files rnds => opAdmitIds (.admitFiles files rnds)
  | _ => []

/-- The ids a collection operation admits through the paste adapter. -/
def opPasteIds : CollectionOp → List String
  | .admitPaste now items rnds => opAdmitIds (.admitPaste now items rnds)
  | _ => []

/-- The file-adapter ids one trace event admits. -/
def tFileIds : TraceOp → List String
  | .op o => opFileIds o
  | _ => []

/-- The paste-adapter ids one trace event admits. -/
def tPasteIds : TraceOp → List String
  | .op o => opPasteIds o
  | _ => []

/-- The ids one trace event settles. -/
def tSettleIds : TraceOp → List String
  | .settleSuccess i _ => [i]
  | .settleFailure i => [i]
  | _ => []

/-- File-adapter ids admitted across a trace, in order. -/
def traceFileIds (tr : List TraceOp) : List String :=
  (tr.map tFileIds).join

/-- Paste-adapter ids admitted across a trace, in order. -/
def tracePasteIds (tr : List TraceOp) : List String :=
  (tr.map tPasteIds).join

/-- Ids whose promise settles across a trace, in order. -/
def traceSettleIds (tr : List TraceOp) : List String :=
  (tr.map tSettleIds).join

/-- The well-formedness of a trace under the program's own asynchronous
discipline: admission-generated ids are globally pairwise distinct (the
spec's fresh-identifier contract), each promise settles at most once, and
a settlement belongs to a pasted entry (only the paste path submits to
the enhancement pipeline). -/
def ValidTrace (tr : List TraceOp) : Prop :=
  (traceFileIds tr ++ tracePasteIds tr).Nodup ∧
    (traceSettleIds tr).Nodup ∧
    ∀ i ∈ traceSettleIds tr, i ∈ tracePasteIds tr

instance (tr : List TraceOp) : Decidable (ValidTrace tr) := by
  unfold ValidTrace
  infer_instance

/-- The status of the item with id `i` after the first `n` trace events
(`none` when no such item is in the collection). -/
def statusAt (tr : List TraceOp) (n : Nat) (i : String) : Option Status :=
  ((runTrace (tr.take n) initState).managedImages.find?
    (fun img => img.id = i)).map (fun img => img.status)

/-- The legal evolutions of one item's status: unchanged, or the single
transition out of `upscaling` into `ready` or `error`. -/
def StatusStep (a b : Status) : Prop :=
  a = b ∨ (a = Status.upscaling ∧ (b = Status.ready ∨ b = Status.error))

theorem StatusStep.trans {a b c : Status} (h1 : StatusStep a b)
    (h2 : StatusStep b c) : StatusStep a c := by
  rcases h1 with rfl | ⟨rfl, hb⟩
  · exact h2
  · rcases h2 with rfl | ⟨rfl, hc⟩
    · exact Or.inr ⟨rfl, hb⟩
    · rcases hb with h | h <;> cases h

/-! Decomposition lemmas for the id lists. -/

theorem traceFileIds_append (a b : List TraceOp) :
    traceFileIds (a ++ b) = traceFileIds a ++ traceFileIds b := by
  simp [traceFileIds]

theorem tracePasteIds_append (a b : List TraceOp) :
    tracePasteIds (a ++ b) = tracePasteIds a ++ tracePasteIds b := by
  simp [tracePasteIds]

theorem traceSettleIds_append (a b : List TraceOp) :
    traceSettleIds (a ++ b) = traceSettleIds a ++ traceSettleIds b := by
  simp [traceSettleIds]

theorem runTrace_append (a b : List TraceOp) (s : AppState) :
    runTrace (a ++ b) s = runTrace b (runTrace a s) := by
  simp [runTrace, List.foldl_append]

theorem runTrace_take_succ (tr : List TraceOp) (n : Nat)
    (hn : n < tr.length) :
    runTrace (tr.take (n + 1)) initState =
      applyTraceOp (tr.get ⟨n, hn⟩) (runTrace (tr.take n) initState) := by
  rw [List.take_succ, List.getElem?_eq_getElem hn]
  rw [runTrace_append]
  rfl

theorem take_decomp (tr : List TraceOp) (n : Nat) (hn : n < tr.length) :
    tr = tr.take n ++ ([tr.get ⟨n, hn⟩] ++ tr.drop (n + 1)) := by
  conv_lhs => rw [← List.take_append_drop (n + 1) tr]
  rw [List.take_succ, List.getElem?_eq_getElem hn]
  simp

/-! find?-characterizations of each event. -/

theorem find?_filter_ne (l : List ManagedImage) (r i : String)
    (hne : ¬(i = r)) :
    (l.filter (fun img => ¬(img.id = r))).find? (fun img => img.id = i) =
      l.find? (fun img => img.id = i) := by
  induction l with
  | nil => rfl
  | cons x rest ih =>
      by_cases hx : x.id = i
      · have hxr : ¬(x.id = r) := by rw [hx]; exact hne
        rw [@List.filter_cons_of_pos ManagedImage
            (fun img => decide (¬(img.id = r))) x _ (decide_eq_true hxr),
          @List.find?_cons_of_pos ManagedImage
            (fun img => decide (img.id = i)) x _ (decide_eq_true hx),
          @List.find?_cons_of_pos ManagedImage
            (fun img => decide (img.id = i)) x _ (decide_eq_true hx)]
      · by_cases hxr : x.id = r
        · rw [@List.filter_cons_of_neg ManagedImage
              (fun img => decide (¬(img.id = r))) x _ (by simpa using hxr),
            @List.find?_cons_of_neg ManagedImage
              (fun img => decide (img.id = i)) x _ (by simpa using hx), ih]
        · rw [@List.filter_cons_of_pos ManagedImage
              (fun img => decide (¬(img.id = r))) x _ (decide_eq_true hxr),
            @List.find?_cons_of_neg ManagedImage
              (fun img => decide (img.id = i)) x _ (by simpa using hx),
            @List.find?_cons_of_neg ManagedImage
              (fun img => decide (img.id = i)) x _ (by simpa using hx), ih]

theorem find?_filter_self (l : List ManagedImage) (r : String) :
    (l.filter (fun img => ¬(img.id = r))).find? (fun img => img.id = r) =
      none := by
  rw [List.find?_eq_none]
  intro x hx
  have h2 := List.of_mem_filter hx
  simp only [decide_eq_true_eq] at h2 ⊢
  exact h2

theorem find?_update_other (l : List ManagedImage) (i0 : String)
    (g : ManagedImage → ManagedImage) (hg : ∀ x, (g x).id = x.id)
    (i : String) (hne : ¬(i = i0)) :
    (l.map (fun x => if x.id = i0 then g x else x)).find?
        (fun img => img.id = i) = l.find? (fun img => img.id = i) := by
  induction l with
  | nil => rfl
  | cons x rest ih =>
      rw [List.map_cons]
      by_cases hx0 : x.id = i0
      · have hgne : ¬((g x).id = i) := by
          rw [hg, hx0]
          intro he
          exact hne he.symm
        have hxne : ¬(x.id = i) := by
          rw [hx0]
          intro he
          exact hne he.symm
        rw [if_pos hx0,
          @List.find?_cons_of_neg ManagedImage
            (fun img => decide (img.id = i)) (g x) _ (by simpa using hgne),
          @List.find?_cons_of_neg ManagedImage
            (fun img => decide (img.id = i)) x _ (by simpa using hxne), ih]
      · rw [if_neg hx0]
        by_cases hxi : x.id = i
        · rw [@List.find?_cons_of_pos ManagedImage
              (fun img => decide (img.id = i)) x _ (decide_eq_true hxi),
            @List.find?_cons_of_pos ManagedImage
              (fun img => decide (img.id = i)) x _ (decide_eq_true hxi)]
        · rw [@List.find?_cons_of_neg ManagedImage
              (fun img => decide (img.id = i)) x _ (by simpa using hxi),
            @List.find?_cons_of_neg ManagedImage
              (fun img => decide (img.id = i)) x _ (by simpa using hxi), ih]

theorem find?_update_self (l : List ManagedImage) (i0 : String)
    (g : ManagedImage → ManagedImage) (hg : ∀ x, (g x).id = x.id) :
    (l.map (fun x => if x.id = i0 then g x else x)).find?
        (fun img => img.id = i0) =
      (l.find? (fun img => img.id = i0)).map g := by
  induction l with
  | nil => rfl
  | cons x rest ih =>
      rw [List.map_cons]
      by_cases hx0 : x.id = i0
      · have hgx : (g x).id = i0 := by rw [hg, hx0]
        rw [if_pos hx0,
          @List.find?_cons_of_pos ManagedImage
            (fun img => decide (img.id = i0)) (g x) _ (decide_eq_true hgx),
          @List.find?_cons_of_pos ManagedImage
            (fun img => decide (img.id = i0)) x _ (decide_eq_true hx0)]
        rfl
      · rw [if_neg hx0,
          @List.find?_cons_of_neg ManagedImage
            (fun img => decide (img.id = i0)) x _ (by simpa using hx0),
          @List.find?_cons_of_neg ManagedImage
            (fun img => decide (img.id = i0)) x _ (by simpa using hx0), ih]

theorem onUpscaleSuccess_managedImages (i0 : String) (f : RawFile)
    (s : AppState) :
    (onUpscaleSuccess i0 f s).managedImages =
      s.managedImages.map (fun img =>
        if img.id = i0 then
          { img with
              file := f
              previewUrl := s.nextHandle
              status := Status.ready }
        else img) := rfl

theorem onUpscaleFailure_managedImages (i0 : String) (s : AppState) :
    (onUpscaleFailure i0 s).managedImages =
      s.managedImages.map (fun img =>
        if img.id = i0 then
          { img with
              status := Status.error
              errorMessage := some upscalingFailedMessage }
        else img) := rfl

theorem handleClearImages_managedImages (s : AppState) :
    (handleClearImages s).managedImages = [] := rfl

theorem traceFileIds_singleton (t : TraceOp) :
    traceFileIds [t] = tFileIds t := by
  simp [traceFileIds]

theorem tracePasteIds_singleton (t : TraceOp) :
    tracePasteIds [t] = tPasteIds t := by
  simp [tracePasteIds]

theorem traceSettleIds_singleton (t : TraceOp) :
    traceSettleIds [t] = tSettleIds t := by
  simp [traceSettleIds]

theorem entriesFor_status (st : Status) (ps : List (RawFile × String))
    (n : Nat) : ∀ e ∈ entriesFor st ps n, e.status = st := by
  induction ps generalizing n with
  | nil => intro e he; simp [entriesFor] at he
  | cons p rest ih =>
      intro e he
      cases p with
      | mk f rnd =>
          rcases List.mem_cons.mp he with rfl | he'
          · rfl
          · exact ih _ _ he'

theorem entriesFor_mem_id (st : Status) (ps : List (RawFile × String))
    (n : Nat) : ∀ e ∈ entriesFor st ps n,
      e.id ∈ ps.map (fun p => p.1.name ++ "-" ++ p.2) := by
  intro e he
  rw [← entriesFor_map_id st ps n]
  exact List.mem_map_of_mem _ he

/-- The status-machine invariant carried along a trace: ids are pairwise
distinct, every item was admitted through one of the two adapters, every
file-admitted item is `ready`, and every paste-admitted item whose
promise has not yet settled is still `upscaling`. -/
structure Coherent (s : AppState) (fids pids sids : List String) : Prop where
  idsNodup : (s.managedImages.map (fun img => img.id)).Nodup
  originOk : ∀ img ∈ s.managedImages, img.id ∈ fids ∨ img.id ∈ pids
  fileReady : ∀ img ∈ s.managedImages, img.id ∈ fids →
    img.status = Status.ready
  pasteFresh : ∀ img ∈ s.managedImages, img.id ∈ pids → img.id ∉ sids →
    img.status = Status.upscaling

/-- Admission through the file adapter preserves coherence when the new
ids are fresh. -/
theorem coherent_admitFiles (files : List RawFile) (rnds : Nat → String)
    (s : AppState) (fids pids sids : List String)
    (hc : Coherent s fids pids sids)
    (hN : (opFileIds (CollectionOp.admitFiles files rnds)).Nodup)
    (hNf : ∀ x ∈ opFileIds (CollectionOp.admitFiles files rnds), x ∉ fids)
    (hNp : ∀ x ∈ opFileIds (CollectionOp.admitFiles files rnds), x ∉ pids) :
    Coherent (handleFileChange files rnds s)
      (fids ++ opFileIds (CollectionOp.admitFiles files rnds)) pids sids := by
  obtain ⟨h1, _, _, _⟩ := handleFileChange_ledger_fields files rnds s
  set ps := withRnds rnds (files.filter (fun f => strStartsWith f.type "image/"))
    with hps
  have hsegids : (entriesFor Status.ready ps s.nextHandle).map
      (fun e => e.id) = opFileIds (CollectionOp.admitFiles files rnds) := by
    rw [entriesFor_map_id]
    rfl
  constructor
  · rw [h1, List.map_append, hsegids, List.nodup_append]
    refine ⟨hc.idsNodup, hN, ?_⟩
    intro x hx hx'
    rcases List.mem_map.mp hx with ⟨img, hm, he⟩
    rcases hc.originOk _ hm with hf | hp
    · exact hNf _ hx' (he ▸ hf)
    · exact hNp _ hx' (he ▸ hp)
  · intro img hm
    rw [h1] at hm
    rcases List.mem_append.mp hm with h | h
    · rcases hc.originOk img h with hf | hp
      · exact Or.inl (List.mem_append_left _ hf)
      · exact Or.inr hp
    · refine Or.inl (List.mem_append_right _ ?_)
      rw [← hsegids]
      exact List.mem_map_of_mem _ h
  · intro img hm hid
    rw [h1] at hm
    rcases List.mem_append.mp hm with h | h
    · rcases List.mem_append.mp hid with hf | hseg
      · exact hc.fileReady img h hf
      · exfalso
        rcases hc.originOk img h with ho | ho
        · exact hNf _ hseg ho
        · exact hNp _ hseg ho
    · exact entriesFor_status _ _ _ _ h
  · intro img hm hp hsid
    rw [h1] at hm
    rcases List.mem_append.mp hm with h | h
    · exact hc.pasteFresh img h hp hsid
    · exfalso
      refine hNp img.id ?_ hp
      rw [← hsegids]
      exact List.mem_map_of_mem _ h

/-- Admission through the paste adapter preserves coherence when the new
ids are fresh; the new entries enter in `upscaling`. -/
theorem coherent_admitPaste (now : Nat) (items : List ClipboardItem)
    (rnds : Nat → String) (s : AppState) (fids pids sids : List String)
    (hc : Coherent s fids pids sids)
    (hN : (opPasteIds (CollectionOp.admitPaste now items rnds)).Nodup)
    (hNf : ∀ x ∈ opPasteIds (CollectionOp.admitPaste now items rnds),
      x ∉ fids)
    (hNp : ∀ x ∈ opPasteIds (CollectionOp.admitPaste now items rnds),
      x ∉ pids) :
    Coherent (handlePaste now items rnds s) fids
      (pids ++ opPasteIds (CollectionOp.admitPaste now items rnds)) sids := by
  obtain ⟨h1, _, _, _⟩ := handlePaste_ledger_fields now items rnds s
  set ps := withRnds rnds (collectPasted now items.enum) with hps
  have hsegids : (entriesFor Status.upscaling ps s.nextHandle).map
      (fun e => e.id) =
        opPasteIds (CollectionOp.admitPaste now items rnds) := by
    rw [entriesFor_map_id]
    rfl
  constructor
  · rw [h1, List.map_append, hsegids, List.nodup_append]
    refine ⟨hc.idsNodup, hN, ?_⟩
    intro x hx hx'
    rcases List.mem_map.mp hx with ⟨img, hm, he⟩
    rcases hc.originOk _ hm with hf | hp
    · exact hNf _ hx' (he ▸ hf)
    · exact hNp _ hx' (he ▸ hp)
  · intro img hm
    rw [h1] at hm
    rcases List.mem_append.mp hm with h | h
    · rcases hc.originOk img h with hf | hp
      · exact Or.inl hf
      · exact Or.inr (List.mem_append_left _ hp)
    · refine Or.inr (List.mem_append_right _ ?_)
      rw [← hsegids]
      exact List.mem_map_of_mem _ h
  · intro img hm hid
    rw [h1] at hm
    rcases List.mem_append.mp hm with h | h
    · exact hc.fileReady img h hid
    · exfalso
      refine hNf img.id ?_ hid
      rw [← hsegids]
      exact List.mem_map_of_mem _ h
  · intro img hm hp hsid
    rw [h1] at hm
    rcases List.mem_append.mp hm with h | h
    · rcases List.mem_append.mp hp with hp' | hseg
      · exact hc.pasteFresh img h hp' hsid
      · exfalso
        rcases hc.originOk img h with ho | ho
        · exact hNf _ hseg ho
        · exact hNp _ hseg ho
    · exact entriesFor_status _ _ _ _ h

/-- An id-preserving per-item map (the settle continuations) keeps the id
list of the collection unchanged. -/
theorem map_update_ids (l : List ManagedImage) (i0 : String)
    (g : ManagedImage → ManagedImage) (hg : ∀ x, (g x).id = x.id) :
    (l.map (fun x => if x.id = i0 then g x else x)).map (fun img => img.id) =
      l.map (fun img => img.id) := by
  rw [List.map_map]
  apply List.map_congr_left
  intro x _
  by_cases hx : x.id = i0
  · simp [hx, hg]
  · simp [hx]

theorem coherent_settleSuccess (i0 : String) (f : RawFile) (s : AppState)
    (fids pids sids : List String) (hc : Coherent s fids pids sids) :
    Coherent (onUpscaleSuccess i0 f s) fids pids (sids ++ [i0]) := by
  constructor
  · rw [onUpscaleSuccess_managedImages,
      map_update_ids s.managedImages i0
        (fun img => { img with
          file := f
          previewUrl := s.nextHandle
          status := Status.ready }) (fun x => rfl)]
    exact hc.idsNodup
  · intro img hm
    rw [onUpscaleSuccess_managedImages] at hm
    rcases List.mem_map.mp hm with ⟨x, hx, he⟩
    rw [← he]
    by_cases hxi : x.id = i0
    · rw [if_pos hxi]
      exact hc.originOk x hx
    · rw [if_neg hxi]
      exact hc.originOk x hx
  · intro img hm hf
    rw [onUpscaleSuccess_managedImages] at hm
    rcases List.mem_map.mp hm with ⟨x, hx, he⟩
    rw [← he] at hf ⊢
    by_cases hxi : x.id = i0
    · rw [if_pos hxi]
    · rw [if_neg hxi] at hf ⊢
      exact hc.fileReady x hx hf
  · intro img hm hp hs
    rw [onUpscaleSuccess_managedImages] at hm
    rcases List.mem_map.mp hm with ⟨x, hx, he⟩
    rw [← he] at hp hs ⊢
    by_cases hxi : x.id = i0
    · exfalso
      rw [if_pos hxi] at hs
      refine hs (List.mem_append_right _ ?_)
      show x.id ∈ [i0]
      rw [hxi]
      exact List.mem_singleton_self i0
    · rw [if_neg hxi] at hp hs ⊢
      exact hc.pasteFresh x hx hp (fun hmem => hs (List.mem_append_left _ hmem))

theorem coherent_settleFailure (i0 : String) (s : AppState)
    (fids pids sids : List String) (hc : Coherent s fids pids sids)
    (hNf : i0 ∉ fids) :
    Coherent (onUpscaleFailure i0 s) fids pids (sids ++ [i0]) := by
  constructor
  · rw [onUpscaleFailure_managedImages,
      map_update_ids s.managedImages i0
        (fun img => { img with
          status := Status.error
          errorMessage := some upscalingFailedMessage }) (fun x => rfl)]
    exact hc.idsNodup
  · intro img hm
    rw [onUpscaleFailure_managedImages] at hm
    rcases List.mem_map.mp hm with ⟨x, hx, he⟩
    rw [← he]
    by_cases hxi : x.id = i0
    · rw [if_pos hxi]
      exact hc.originOk x hx
    · rw [if_neg hxi]
      exact hc.originOk x hx
  · intro img hm hf
    rw [onUpscaleFailure_managedImages] at hm
    rcases List.mem_map.mp hm with ⟨x, hx, he⟩
    rw [← he] at hf ⊢
    by_cases hxi : x.id = i0
    · exfalso
      rw [if_pos hxi] at hf
      have : x.id ∈ fids := hf
      rw [hxi] at this
      exact hNf this
    · rw [if_neg hxi] at hf ⊢
      exact hc.fileReady x hx hf
  · intro img hm hp hs
    rw [onUpscaleFailure_managedImages] at hm
    rcases List.mem_map.mp hm with ⟨x, hx, he⟩
    rw [← he] at hp hs ⊢
    by_cases hxi : x.id = i0
    · exfalso
      rw [if_pos hxi] at hs
      refine hs (List.mem_append_right _ ?_)
      show x.id ∈ [i0]
      rw [hxi]
      exact List.mem_singleton_self i0
    · rw [if_neg hxi] at hp hs ⊢
      exact hc.pasteFresh x hx hp (fun hmem => hs (List.mem_append_left _ hmem))

theorem coherent_remove (r : String) (s : AppState)
    (fids pids sids : List String) (hc : Coherent s fids pids sids) :
    Coherent (handleRemoveImage r s) fids pids sids := by
  have hmi := handleRemoveImage_managedImages r s
  constructor
  · rw [hmi]
    exact ((List.filter_sublist _).map _).nodup hc.idsNodup
  · intro img hm
    rw [hmi] at hm
    exact hc.originOk img (List.mem_of_mem_filter hm)
  · intro img hm hf
    rw [hmi] at hm
    exact hc.fileReady img (List.mem_of_mem_filter hm) hf
  · intro img hm hp hs
    rw [hmi] at hm
    exact hc.pasteFresh img (List.mem_of_mem_filter hm) hp hs

theorem coherent_clear (s : AppState) (fids pids sids : List String)
    (hc : Coherent s fids pids sids) :
    Coherent (handleClearImages s) fids pids sids := by
  constructor
  · rw [handleClearImages_managedImages]
    exact List.nodup_nil
  · intro img hm
    rw [handleClearImages_managedImages] at hm
    exact absurd hm (List.not_mem_nil img)
  · intro img hm
    rw [handleClearImages_managedImages] at hm
    exact absurd hm (List.not_mem_nil img)
  · intro img hm
    rw [handleClearImages_managedImages] at hm
    exact absurd hm (List.not_mem_nil img)

theorem runTrace_singleton (t : TraceOp) (s : AppState) :
    runTrace [t] s = applyTraceOp t s := rfl

theorem fileIds_decomp (tr : List TraceOp) (n : Nat) (hn : n < tr.length) :
    traceFileIds tr =
      traceFileIds (tr.take n) ++
        (tFileIds (tr.get ⟨n, hn⟩) ++ traceFileIds (tr.drop (n + 1))) := by
  conv_lhs => rw [take_decomp tr n hn]
  rw [traceFileIds_append, traceFileIds_append, traceFileIds_singleton]

theorem pasteIds_decomp (tr : List TraceOp) (n : Nat) (hn : n < tr.length) :
    tracePasteIds tr =
      tracePasteIds (tr.take n) ++
        (tPasteIds (tr.get ⟨n, hn⟩) ++ tracePasteIds (tr.drop (n + 1))) := by
  conv_lhs => rw [take_decomp tr n hn]
  rw [tracePasteIds_append, tracePasteIds_append, tracePasteIds_singleton]

theorem settleIds_decomp (tr : List TraceOp) (n : Nat) (hn : n < tr.length) :
    traceSettleIds tr =
      traceSettleIds (tr.take n) ++
        (tSettleIds (tr.get ⟨n, hn⟩) ++ traceSettleIds (tr.drop (n + 1))) := by
  conv_lhs => rw [take_decomp tr n hn]
  rw [traceSettleIds_append, traceSettleIds_append, traceSettleIds_singleton]

theorem nodup_mid {A B C : List String} (h : (A ++ (B ++ C)).Nodup) :
    B.Nodup :=
  (List.nodup_append.mp ((List.nodup_append.mp h).2.1)).1

theorem notin_left_of_mid {A B C : List String} (h : (A ++ (B ++ C)).Nodup) :
    ∀ x ∈ B, x ∉ A := by
  intro x hxB hxA
  exact (List.nodup_append.mp h).2.2 hxA (List.mem_append_left _ hxB)

theorem coherent_take (tr : List TraceOp) (hv : ValidTrace tr) (n : Nat) :
    Coherent (runTrace (tr.take n) initState)
      (traceFileIds (tr.take n)) (tracePasteIds (tr.take n))
      (traceSettleIds (tr.take n)) := by
  obtain ⟨hv1, hv2, hv3⟩ := hv
  induction n with
  | zero =>
      constructor
      · simp [runTrace, initState]
      · intro img hm
        simp [runTrace, initState] at hm
      · intro img hm
        simp [runTrace, initState] at hm
      · intro img hm
        simp [runTrace, initState] at hm
  | succ n ih =>
      by_cases hn : n < tr.length
      · have htake : tr.take (n + 1) = tr.take n ++ [tr.get ⟨n, hn⟩] := by
          rw [List.take_succ, List.getElem?_eq_getElem hn]
          rfl
        rw [htake, runTrace_append, runTrace_singleton, traceFileIds_append,
          tracePasteIds_append, traceSettleIds_append, traceFileIds_singleton,
          tracePasteIds_singleton, traceSettleIds_singleton]
        have hFdec := fileIds_decomp tr n hn
        have hPdec := pasteIds_decomp tr n hn
        have hSdec := settleIds_decomp tr n hn
        have hFP := (List.nodup_append.mp hv1).2.2
        have hFnodup := (List.nodup_append.mp hv1).1
        have hPnodup := (List.nodup_append.mp hv1).2.1
        cases ht : tr.get ⟨n, hn⟩ with
        | op o =>
            rw [ht] at hFdec hPdec hSdec
            cases o with
            | admitFiles files rnds =>
                simp only [tFileIds, tPasteIds, tSettleIds, opPasteIds,
                  List.append_nil]
                simp only [tFileIds, tPasteIds, tSettleIds] at hFdec hPdec hSdec
                rw [hFdec] at hFnodup
                have hN := nodup_mid hFnodup
                have hNf := notin_left_of_mid hFnodup
                have hNp : ∀ x ∈ opFileIds (CollectionOp.admitFiles files rnds),
                    x ∉ tracePasteIds (tr.take n) := by
                  intro x hxN hxP1
                  exact hFP
                    (by rw [hFdec]
                        exact List.mem_append_right _
                          (List.mem_append_left _ hxN))
                    (by rw [hPdec]
                        exact List.mem_append_left _ hxP1)
                exact coherent_admitFiles files rnds _ _ _ _ ih hN hNf hNp
            | admitPaste now items rnds =>
                simp only [tFileIds, tPasteIds, tSettleIds, opFileIds,
                  List.append_nil]
                simp only [tFileIds, tPasteIds, tSettleIds] at hFdec hPdec hSdec
                rw [hPdec] at hPnodup
                have hN := nodup_mid hPnodup
                have hNp := notin_left_of_mid hPnodup
                have hNf : ∀ x ∈ opPasteIds (CollectionOp.admitPaste now items rnds),
                    x ∉ traceFileIds (tr.take n) := by
                  intro x hxN hxF1
                  exact hFP
                    (by rw [hFdec]
                        exact List.mem_append_left _ hxF1)
                    (by rw [hPdec]
                        exact List.mem_append_right _
                          (List.mem_append_left _ hxN))
                exact coherent_admitPaste now items rnds _ _ _ _ ih hN hNf hNp
            | removeImage r =>
                simp only [tFileIds, tPasteIds, tSettleIds, opFileIds,
                  opPasteIds, List.append_nil]
                exact coherent_remove r _ _ _ _ ih
            | clearImages =>
                simp only [tFileIds, tPasteIds, tSettleIds, opFileIds,
                  opPasteIds, List.append_nil]
                exact coherent_clear _ _ _ _ ih
        | settleSuccess i f =>
            simp only [tFileIds, tPasteIds, tSettleIds, List.append_nil]
            exact coherent_settleSuccess i f _ _ _ _ ih
        | settleFailure i =>
            rw [ht] at hFdec hPdec hSdec
            simp only [tFileIds, tPasteIds, tSettleIds, List.append_nil]
            simp only [tSettleIds] at hSdec
            have hiS : i ∈ traceSettleIds tr := by
              rw [hSdec]
              exact List.mem_append_right _
                (List.mem_append_left _ (List.mem_singleton_self i))
            have hiP : i ∈ tracePasteIds tr := hv3 i hiS
            have hNf : i ∉ traceFileIds (tr.take n) := by
              intro hiF1
              exact hFP
                (by rw [hFdec]
                    exact List.mem_append_left _ hiF1) hiP
            exact coherent_settleFailure i _ _ _ _ ih hNf
      · have hle : tr.length ≤ n := Nat.le_of_not_lt hn
        have heq : tr.take (n + 1) = tr.take n := by
          rw [List.take_of_length_le hle,
            List.take_of_length_le (Nat.le_succ_of_le hle)]
        rw [heq]
        exact ih

theorem statusAt_succ (tr : List TraceOp) (n : Nat) (hn : n < tr.length)
    (i : String) :
    statusAt tr (n + 1) i =
      ((applyTraceOp (tr.get ⟨n, hn⟩)
          (runTrace (tr.take n) initState)).managedImages.find?
        (fun img => img.id = i)).map (fun img => img.status) := by
  unfold statusAt
  rw [runTrace_take_succ tr n hn]

theorem statusAt_stable (tr : List TraceOp) (n : Nat)
    (hle : tr.length ≤ n) (i : String) :
    statusAt tr (n + 1) i = statusAt tr n i := by
  unfold statusAt
  rw [List.take_of_length_le hle,
    List.take_of_length_le (Nat.le_succ_of_le hle)]

theorem statusAt_some_elim (tr : List TraceOp) (n : Nat) (i : String)
    (st : Status) (h : statusAt tr n i = some st) :
    ∃ img ∈ (runTrace (tr.take n) initState).managedImages,
      img.id = i ∧ img.status = st := by
  unfold statusAt at h
  cases hf : (runTrace (tr.take n) initState).managedImages.find?
      (fun img => img.id = i) with
  | none => rw [hf] at h; simp at h
  | some img =>
      rw [hf] at h
      exact ⟨img, List.mem_of_find?_eq_some hf,
        by simpa using List.find?_some hf, by simpa using h⟩

theorem present_admitted (tr : List TraceOp) (hv : ValidTrace tr) (n : Nat)
    (i : String) (a : Status) (ha : statusAt tr n i = some a) :
    i ∈ traceFileIds (tr.take n) ∨ i ∈ tracePasteIds (tr.take n) := by
  have hc := coherent_take tr hv n
  rcases statusAt_some_elim tr n i a ha with ⟨img, hm, hid, _⟩
  have := hc.originOk img hm
  rw [hid] at this
  exact this

theorem admitted_mono (tr : List TraceOp) (m j : Nat) (hij : m ≤ j)
    (x : String)
    (h : x ∈ traceFileIds (tr.take m) ∨ x ∈ tracePasteIds (tr.take m)) :
    x ∈ traceFileIds (tr.take j) ∨ x ∈ tracePasteIds (tr.take j) := by
  have hdec : tr.take j = tr.take m ++ (tr.take j).drop m := by
    conv_lhs => rw [← List.take_append_drop m (tr.take j)]
    rw [List.take_take, Nat.min_eq_left hij]
  rw [hdec, traceFileIds_append, tracePasteIds_append]
  rcases h with h | h
  · exact Or.inl (List.mem_append_left _ h)
  · exact Or.inr (List.mem_append_left _ h)

theorem no_readmission (tr : List TraceOp) (hv : ValidTrace tr) (m : Nat)
    (hm : m < tr.length) (i : String)
    (h1 : i ∈ traceFileIds (tr.take m) ∨ i ∈ tracePasteIds (tr.take m))
    (h2 : i ∈ tFileIds (tr.get ⟨m, hm⟩) ∨ i ∈ tPasteIds (tr.get ⟨m, hm⟩)) :
    False := by
  obtain ⟨hv1, _, _⟩ := hv
  have hFdec := fileIds_decomp tr m hm
  have hPdec := pasteIds_decomp tr m hm
  have hFP := (List.nodup_append.mp hv1).2.2
  have hF := (List.nodup_append.mp hv1).1
  have hP := (List.nodup_append.mp hv1).2.1
  rcases h1 with h1 | h1 <;> rcases h2 with h2 | h2
  · rw [hFdec] at hF
    exact (List.nodup_append.mp hF).2.2 h1 (List.mem_append_left _ h2)
  · exact hFP
      (by rw [hFdec]; exact List.mem_append_left _ h1)
      (by rw [hPdec]
          exact List.mem_append_right _ (List.mem_append_left _ h2))
  · exact hFP
      (by rw [hFdec]
          exact List.mem_append_right _ (List.mem_append_left _ h2))
      (by rw [hPdec]; exact List.mem_append_left _ h1)
  · rw [hPdec] at hP
    exact (List.nodup_append.mp hP).2.2 h1 (List.mem_append_left _ h2)

/-- A step from absent to present is an admission whose generated ids
contain the item's id; the new item carries the admission status of its
adapter. -/
theorem none_to_some (tr : List TraceOp) (n : Nat) (hn : n < tr.length)
    (i : String) (b : Status) (h0 : statusAt tr n i = none)
    (h1 : statusAt tr (n + 1) i = some b) :
    (i ∈ tFileIds (tr.get ⟨n, hn⟩) ∧ b = Status.ready) ∨
      (i ∈ tPasteIds (tr.get ⟨n, hn⟩) ∧ b = Status.upscaling) := by
  have hfind0 : (runTrace (tr.take n) initState).managedImages.find?
      (fun img => img.id = i) = none := by
    unfold statusAt at h0
    cases hf : (runTrace (tr.take n) initState).managedImages.find?
        (fun img => img.id = i) with
    | none => rfl
    | some img => rw [hf] at h0; simp at h0
  rw [statusAt_succ tr n hn i] at h1
  cases ht : tr.get ⟨n, hn⟩ with
  | op o =>
      rw [ht] at h1
      cases o with
      | admitFiles files rnds =>
          obtain ⟨hmi, _, _, _⟩ :=
            handleFileChange_ledger_fields files rnds
              (runTrace (tr.take n) initState)
          rw [show applyTraceOp
              (TraceOp.op (CollectionOp.admitFiles files rnds))
              (runTrace (tr.take n) initState) =
                handleFileChange files rnds (runTrace (tr.take n) initState)
              from rfl, hmi, List.find?_append, hfind0] at h1
          cases hE : (entriesFor Status.ready
              (withRnds rnds
                (files.filter (fun f => strStartsWith f.type "image/")))
              (runTrace (tr.take n) initState).nextHandle).find?
              (fun img => img.id = i) with
          | none => rw [hE] at h1; simp at h1
          | some e =>
              rw [hE] at h1
              have heid : e.id = i := by simpa using List.find?_some hE
              have hemem := List.mem_of_find?_eq_some hE
              refine Or.inl ⟨?_, ?_⟩
              · have := entriesFor_mem_id _ _ _ e hemem
                rw [heid] at this
                simpa [tFileIds, opFileIds, opAdmitIds] using this
              · have hbst : e.status = b := by simpa using h1
                have hst := entriesFor_status _ _ _ e hemem
                rw [← hbst, hst]
      | admitPaste now items rnds =>
          obtain ⟨hmi, _, _, _⟩ :=
            handlePaste_ledger_fields now items rnds
              (runTrace (tr.take n) initState)
          rw [show applyTraceOp
              (TraceOp.op (CollectionOp.admitPaste now items rnds))
              (runTrace (tr.take n) initState) =
                handlePaste now items rnds (runTrace (tr.take n) initState)
              from rfl, hmi, List.find?_append, hfind0] at h1
          cases hE : (entriesFor Status.upscaling
              (withRnds rnds (collectPasted now items.enum))
              (runTrace (tr.take n) initState).nextHandle).find?
              (fun img => img.id = i) with
          | none => rw [hE] at h1; simp at h1
          | some e =>
              rw [hE] at h1
              have heid : e.id = i := by simpa using List.find?_some hE
              have hemem := List.mem_of_find?_eq_some hE
              refine Or.inr ⟨?_, ?_⟩
              · have := entriesFor_mem_id _ _ _ e hemem
                rw [heid] at this
                simpa [tPasteIds, opPasteIds, opAdmitIds] using this
              · have hbst : e.status = b := by simpa using h1
                have hst := entriesFor_status _ _ _ e hemem
                rw [← hbst, hst]
      | removeImage r =>
          exfalso
          rw [show applyTraceOp (TraceOp.op (CollectionOp.removeImage r))
              (runTrace (tr.take n) initState) =
                handleRemoveImage r (runTrace (tr.take n) initState)
              from rfl, handleRemoveImage_managedImages] at h1
          by_cases hir : i = r
          · rw [hir, find?_filter_self] at h1
            simp at h1
          · rw [find?_filter_ne _ _ _ hir, hfind0] at h1
            simp at h1
      | clearImages =>
          exfalso
          rw [show applyTraceOp (TraceOp.op CollectionOp.clearImages)
              (runTrace (tr.take n) initState) =
                handleClearImages (runTrace (tr.take n) initState)
              from rfl, handleClearImages_managedImages] at h1
          simp at h1
  | settleSuccess i0 f =>
      exfalso
      rw [ht] at h1
      rw [show applyTraceOp (TraceOp.settleSuccess i0 f)
          (runTrace (tr.take n) initState) =
            onUpscaleSuccess i0 f (runTrace (tr.take n) initState)
          from rfl, onUpscaleSuccess_managedImages] at h1
      by_cases hii0 : i = i0
      · rw [← hii0,
          find?_update_self (runTrace (tr.take n) initState).managedImages i
            (fun img => { img with
              file := f
              previewUrl := (runTrace (tr.take n) initState).nextHandle
              status := Status.ready }) (fun x => rfl), hfind0] at h1
        simp at h1
      · rw [find?_update_other (runTrace (tr.take n) initState).managedImages
            i0
            (fun img => { img with
              file := f
              previewUrl := (runTrace (tr.take n) initState).nextHandle
              status := Status.ready }) (fun x => rfl) i hii0,
          hfind0] at h1
        simp at h1
  | settleFailure i0 =>
      exfalso
      rw [ht] at h1
      rw [show applyTraceOp (TraceOp.settleFailure i0)
          (runTrace (tr.take n) initState) =
            onUpscaleFailure i0 (runTrace (tr.take n) initState)
          from rfl, onUpscaleFailure_managedImages] at h1
      by_cases hii0 : i = i0
      · rw [← hii0,
          find?_update_self (runTrace (tr.take n) initState).managedImages i
            (fun img => { img with
              status := Status.error
              errorMessage := some upscalingFailedMessage })
            (fun x => rfl), hfind0] at h1
        simp at h1
      · rw [find?_update_other (runTrace (tr.take n) initState).managedImages
            i0
            (fun img => { img with
              status := Status.error
              errorMessage := some upscalingFailedMessage })
            (fun x => rfl) i hii0, hfind0] at h1
        simp at h1

/-- One trace event moves a present item's status only along
`StatusStep`: admissions and unrelated events leave it unchanged, and a
settlement moves its own (still `upscaling`) item to `ready` or
`error`. -/
theorem statusAt_step (tr : List TraceOp) (hv : ValidTrace tr) (n : Nat)
    (hn : n < tr.length) (i : String) (a b : Status)
    (ha : statusAt tr n i = some a) (hb : statusAt tr (n + 1) i = some b) :
    StatusStep a b := by
  obtain ⟨hv1, hv2, hv3⟩ := hv
  have hc := coherent_take tr ⟨hv1, hv2, hv3⟩ n
  unfold statusAt at ha
  rw [statusAt_succ tr n hn i] at hb
  cases hfind : (runTrace (tr.take n) initState).managedImages.find?
      (fun img => img.id = i) with
  | none => rw [hfind] at ha; simp at ha
  | some img =>
      rw [hfind] at ha
      have haimg : img.status = a := by simpa using ha
      have himem : img ∈ (runTrace (tr.take n) initState).managedImages :=
        List.mem_of_find?_eq_some hfind
      have hiid : img.id = i := by simpa using List.find?_some hfind
      cases ht : tr.get ⟨n, hn⟩ with
      | op o =>
          rw [ht] at hb
          cases o with
          | admitFiles files rnds =>
              obtain ⟨hmi, _, _, _⟩ :=
                handleFileChange_ledger_fields files rnds
                  (runTrace (tr.take n) initState)
              rw [show applyTraceOp
                  (TraceOp.op (CollectionOp.admitFiles files rnds))
                  (runTrace (tr.take n) initState) =
                    handleFileChange files rnds
                      (runTrace (tr.take n) initState)
                  from rfl, hmi, List.find?_append, hfind] at hb
              have : img.status = b := by simpa using hb
              exact Or.inl (by rw [← haimg, ← this])
          | admitPaste now items rnds =>
              obtain ⟨hmi, _, _, _⟩ :=
                handlePaste_ledger_fields now items rnds
                  (runTrace (tr.take n) initState)
              rw [show applyTraceOp
                  (TraceOp.op (CollectionOp.admitPaste now items rnds))
                  (runTrace (tr.take n) initState) =
                    handlePaste now items rnds
                      (runTrace (tr.take n) initState)
                  from rfl, hmi, List.find?_append, hfind] at hb
              have : img.status = b := by simpa using hb
              exact Or.inl (by rw [← haimg, ← this])
          | removeImage r =>
              rw [show applyTraceOp
                  (TraceOp.op (CollectionOp.removeImage r))
                  (runTrace (tr.take n) initState) =
                    handleRemoveImage r (runTrace (tr.take n) initState)
                  from rfl, handleRemoveImage_managedImages] at hb
              by_cases hir : i = r
              · rw [hir, find?_filter_self] at hb
                simp at hb
              · rw [find?_filter_ne _ _ _ hir, hfind] at hb
                have : img.status = b := by simpa using hb
                exact Or.inl (by rw [← haimg, ← this])
          | clearImages =>
              rw [show applyTraceOp (TraceOp.op CollectionOp.clearImages)
                  (runTrace (tr.take n) initState) =
                    handleClearImages (runTrace (tr.take n) initState)
                  from rfl, handleClearImages_managedImages] at hb
              simp at hb
      | settleSuccess i0 f =>
          rw [ht] at hb
          rw [show applyTraceOp (TraceOp.settleSuccess i0 f)
              (runTrace (tr.take n) initState) =
                onUpscaleSuccess i0 f (runTrace (tr.take n) initState)
              from rfl, onUpscaleSuccess_managedImages] at hb
          by_cases hii0 : i = i0
          · rw [← hii0,
              find?_update_self
                (runTrace (tr.take n) initState).managedImages i
                (fun img => { img with
                  file := f
                  previewUrl := (runTrace (tr.take n) initState).nextHandle
                  status := Status.ready }) (fun x => rfl), hfind] at hb
            have hbr : b = Status.ready := by simpa using hb.symm
            have hiS : i ∈ traceSettleIds tr := by
              rw [settleIds_decomp tr n hn, ht]
              simp [tSettleIds, hii0]
            have hiP : i ∈ tracePasteIds tr := hv3 i hiS
            have hup : img.status = Status.upscaling := by
              rcases hc.originOk img himem with hf | hp
              · exfalso
                refine (List.nodup_append.mp hv1).2.2 ?_ hiP
                rw [fileIds_decomp tr n hn]
                exact List.mem_append_left _ (hiid ▸ hf)
              · refine hc.pasteFresh img himem hp ?_
                rw [hiid]
                intro hmemS
                rw [settleIds_decomp tr n hn, ht] at hv2
                simp only [tSettleIds] at hv2
                exact (List.nodup_append.mp hv2).2.2 hmemS
                  (List.mem_append_left _ (by
                    rw [← hii0]
                    exact List.mem_singleton_self i))
            exact Or.inr ⟨by rw [← haimg, hup], Or.inl hbr⟩
          · rw [find?_update_other
                (runTrace (tr.take n) initState).managedImages i0
                (fun img => { img with
                  file := f
                  previewUrl := (runTrace (tr.take n) initState).nextHandle
                  status := Status.ready }) (fun x => rfl) i hii0,
              hfind] at hb
            have : img.status = b := by simpa using hb
            exact Or.inl (by rw [← haimg, ← this])
      | settleFailure i0 =>
          rw [ht] at hb
          rw [show applyTraceOp (TraceOp.settleFailure i0)
              (runTrace (tr.take n) initState) =
                onUpscaleFailure i0 (runTrace (tr.take n) initState)
              from rfl, onUpscaleFailure_managedImages] at hb
          by_cases hii0 : i = i0
          · rw [← hii0,
              find?_update_self
                (runTrace (tr.take n) initState).managedImages i
                (fun img => { img with
                  status := Status.error
                  errorMessage := some upscalingFailedMessage })
                (fun x => rfl), hfind] at hb
            have hbr : b = Status.error := by simpa using hb.symm
            have hiS : i ∈ traceSettleIds tr := by
              rw [settleIds_decomp tr n hn, ht]
              simp [tSettleIds, hii0]
            have hiP : i ∈ tracePasteIds tr := hv3 i hiS
            have hup : img.status = Status.upscaling := by
              rcases hc.originOk img himem with hf | hp
              · exfalso
                refine (List.nodup_append.mp hv1).2.2 ?_ hiP
                rw [fileIds_decomp tr n hn]
                exact List.mem_append_left _ (hiid ▸ hf)
              · refine hc.pasteFresh img himem hp ?_
                rw [hiid]
                intro hmemS
                rw [settleIds_decomp tr n hn, ht] at hv2
                simp only [tSettleIds] at hv2
                exact (List.nodup_append.mp hv2).2.2 hmemS
                  (List.mem_append_left _ (by
                    rw [← hii0]
                    exact List.mem_singleton_self i))
            exact Or.inr ⟨by rw [← haimg, hup], Or.inr hbr⟩
          · rw [find?_update_other
                (runTrace (tr.take n) initState).managedImages i0
                (fun img => { img with
                  status := Status.error
                  errorMessage := some upscalingFailedMessage })
                (fun x => rfl) i hii0, hfind] at hb
            have : img.status = b := by simpa using hb
            exact Or.inl (by rw [← haimg, ← this])

theorem statusAt_mono (tr : List TraceOp) (hv : ValidTrace tr)
    (m j : Nat) (hmj : m ≤ j) (id : String) (a b : Status)
    (ha : statusAt tr m id = some a) (hb : statusAt tr j id = some b) :
    StatusStep a b := by
  obtain ⟨d, rfl⟩ : ∃ d, j = m + d := ⟨j - m, by omega⟩
  clear hmj
  have main : ∀ (d : Nat) (b : Status),
      statusAt tr (m + d) id = some b → StatusStep a b := by
    intro d
    induction d with
    | zero =>
        intro b hb
        rw [Nat.add_zero, ha] at hb
        exact Or.inl (Option.some.inj hb)
    | succ d ih =>
        intro b hb
        by_cases hlt : m + d < tr.length
        · cases hmid : statusAt tr (m + d) id with
          | some c =>
              exact StatusStep.trans (ih c hmid)
                (statusAt_step tr hv (m + d) hlt id c b hmid hb)
          | none =>
              exfalso
              have hadm := none_to_some tr (m + d) hlt id b hmid hb
              have hpres := present_admitted tr hv m id a ha
              have hpres' :=
                admitted_mono tr m (m + d) (Nat.le_add_right m d) id hpres
              refine no_readmission tr hv (m + d) hlt id hpres' ?_
              rcases hadm with ⟨h, _⟩ | ⟨h, _⟩
              · exact Or.inl h
              · exact Or.inr h
        · have hb' : statusAt tr ((m + d) + 1) id = some b := hb
          rw [statusAt_stable tr (m + d) (Nat.le_of_not_lt hlt) id] at hb'
          exact ih b hb'
  exact main d b hb

theorem file_always_ready (tr : List TraceOp) (hv : ValidTrace tr)
    (id : String) (hid : id ∈ traceFileIds tr) (n : Nat) (st : Status)
    (h : statusAt tr n id = some st) : st = Status.ready := by
  have hc := coherent_take tr hv n
  rcases statusAt_some_elim tr n id st h with ⟨img, hm, hiid, hist⟩
  rcases hc.originOk img hm with hf | hp
  · rw [← hist]
    exact hc.fileReady img hm hf
  · exfalso
    obtain ⟨hv1, _, _⟩ := hv
    refine (List.nodup_append.mp hv1).2.2 hid ?_
    have hdec : tracePasteIds tr =
        tracePasteIds (tr.take n) ++ tracePasteIds (tr.drop n) := by
      conv_lhs => rw [← List.take_append_drop n tr]
      rw [tracePasteIds_append]
    rw [hdec]
    exact List.mem_append_left _ (hiid ▸ hp)

theorem paste_starts_upscaling (tr : List TraceOp) (hv : ValidTrace tr)
    (id : String) (hid : id ∈ tracePasteIds tr) (n : Nat) (st : Status)
    (h0 : statusAt tr n id = none) (h1 : statusAt tr (n + 1) id = some st) :
    st = Status.upscaling := by
  by_cases hn : n < tr.length
  · rcases none_to_some tr n hn id st h0 h1 with ⟨hmem, _⟩ | ⟨_, hst⟩
    · exfalso
      obtain ⟨hv1, _, _⟩ := hv
      refine (List.nodup_append.mp hv1).2.2 ?_ hid
      rw [fileIds_decomp tr n hn]
      exact List.mem_append_right _ (List.mem_append_left _ hmem)
    · exact hst
  · rw [statusAt_stable tr n (Nat.le_of_not_lt hn) id, h0] at h1
    exact Option.noConfusion h1

/-- C4: the per-item status machine.  Over every trace that respects the
program's asynchronous discipline (fresh admission ids, each promise
settling at most once and only for a pasted entry): (1) an item's
observed status evolves only along `StatusStep` — it is constant except
for at most one transition out of `upscaling` into exactly one of `ready`
or `error`, never both, never a reverse step; (2) a file-sourced item's
status is `ready` whenever it is observed, from admission on; (3) a
paste-sourced item's status at the moment of admission is `upscaling`. -/
theorem c4_status_machine (tr : List TraceOp) (hv : ValidTrace tr) :
    (∀ m j : Nat, m ≤ j → ∀ (id : String) (a b : Status),
        statusAt tr m id = some a → statusAt tr j id = some b →
          StatusStep a b) ∧
      (∀ id ∈ traceFileIds tr, ∀ (n : Nat) (st : Status),
        statusAt tr n id = some st → st = Status.ready) ∧
      (∀ id ∈ tracePasteIds tr, ∀ (n : Nat) (st : Status),
        statusAt tr n id = none → statusAt tr (n + 1) id = some st →
          st = Status.upscaling) :=
  ⟨fun m j hmj id a b ha hb => statusAt_mono tr hv m j hmj id a b ha hb,
   fun id hid n st h => file_always_ready tr hv id hid n st h,
   fun id hid n st h0 h1 => paste_starts_upscaling tr hv id hid n st h0 h1⟩

/-- C9, amended: at every reachable collection state, the ids of the
items are pairwise distinct — provided the id-generation outcomes
(filename plus `Math.random()` draw) are pairwise distinct across all
admissions, which is the spec's fresh-identifier contract; the
counterexample shows the contract is not enforced for every outcome of
`Math.random()`. -/
theorem c9_amended_id_unique (tr : List TraceOp) (hv : ValidTrace tr)
    (n : Nat) :
    ((runTrace (tr.take n) initState).managedImages.map
      (fun img => img.id)).Nodup :=
  (coherent_take tr hv n).idsNodup

/-- The upscaled payload returned by the transform in the witness
trace. -/
def fUp : RawFile := { name := "up.png", type := "image/png", content := "U" }

/-- A concrete witness trace: one file admission, one paste admission,
then the pasted entry's transform succeeds. -/
def trW : List TraceOp :=
  [TraceOp.op (CollectionOp.admitFiles [fA] (fun _ => "0.1")),
   TraceOp.op (CollectionOp.admitPaste 7 [clipGood] (fun _ => "0.3")),
   TraceOp.settleSuccess "pasted-image-7-0.png-0.3" fUp]

/-- Witness for C4: on `trW`, the pasted entry steps `upscaling → ready`
across the settlement, the file entry is `ready` when observed, and the
pasted entry is `upscaling` at admission. -/
theorem c4_witness :
    StatusStep Status.upscaling Status.ready ∧
      Status.ready = Status.ready ∧
      Status.upscaling = Status.upscaling :=
  ⟨(c4_status_machine trW (by decide)).1 2 3 (by omega)
      "pasted-image-7-0.png-0.3" Status.upscaling Status.ready
      (by decide) (by decide),
   (c4_status_machine trW (by decide)).2.1 "a.png-0.1" (by decide) 1
      Status.ready (by decide),
   (c4_status_machine trW (by decide)).2.2 "pasted-image-7-0.png-0.3"
      (by decide) 1 Status.upscaling (by decide) (by decide)⟩

/-- Witness for C9 (amended) on the concrete trace `trW`. -/
theorem c9_witness :
    ((runTrace (trW.take 3) initState).managedImages.map
      (fun img => img.id)).Nodup :=
  c9_amended_id_unique trW (by decide) 3

end PdfConverter
